import Mathlib

/-!
Verification of the gd-des discrete-event simulator (golemfactory/golem-des).

This file gives a shallow embedding, in Lean 4, of the parts of the
simulator that the specification talks about:

* `gd-engine/src/lib.rs` — the event engine.  The Rust code stores
  `EventWrapper`s in `std::collections::BinaryHeap` with a reversed
  ordering on the `f64` time stamp.  We embed the actual array-based
  binary-heap algorithms of the Rust standard library (`push` with
  `sift_up`, `pop` with `sift_down_to_bottom`), because tie-breaking
  among equal-time events is decided by exactly those algorithms.
  `f64` times are modelled as `ℚ` (every comparison performed by the
  program on non-NaN floats is the rational comparison).
* `gd-world/src/task.rs` — `Task` and `SubTask`.
* `gd-world/src/requestor/task_queue.rs` — `TaskQueue`.
* `gd-world/src/requestor/defence.rs` and the `Redundancy`, `CTasks`
  and `LGRola` defence mechanisms.
* `gd-world/src/provider.rs` — `ProviderCommon::receive_subtask`.
* `gd-world/src/world.rs` — the `World::run` event loop.

`HashMap`s keyed by `Id` are modelled as total functions from `ℕ`
(the code unconditionally `expect`s present keys) or as association
lists when the entry set matters.  `f64` arithmetic is modelled as
exact arithmetic on `ℚ`, or on `ℝ` where the code uses `exp`, `ln`
or `sqrt`.
-/

namespace GD

/-! ### The event engine (gd-engine/src/lib.rs) -/

/-- EventWrapper from gd-engine: a scheduled event together with its
absolute time stamp. -/
structure EventWrapper (E : Type) where
  time : ℚ
  event : E
deriving DecidableEq

/-- EventWrapper::cmp — the reversed ordering used by the engine:
an earlier time compares as `Greater`, so that Rust's max-heap pops
the event with the smallest time. Equal times compare `Equal`. -/
def EventWrapper.cmp {E : Type} (a b : EventWrapper E) : Ordering :=
  if a.time < b.time then Ordering.gt
  else if a.time > b.time then Ordering.lt
  else Ordering.eq

/-- Rust `PartialOrd::le` derived from `EventWrapper::cmp`:
`a <= b ⇔ cmp a b ≠ Greater`. -/
def wLe {E : Type} (a b : EventWrapper E) : Bool :=
  match EventWrapper.cmp a b with
  | Ordering.gt => false
  | _ => true

theorem wLe_iff {E : Type} (a b : EventWrapper E) :
    wLe a b = true ↔ b.time ≤ a.time := by
  unfold wLe EventWrapper.cmp
  by_cases h1 : a.time < b.time
  · simp only [if_pos h1]
    simp only [false_iff, Bool.false_eq_true]
    exact not_le.mpr h1
  · by_cases h2 : a.time > b.time
    · simp only [if_neg h1, if_pos h2]
      simp only [true_iff]
      exact le_of_lt h2
    · simp only [if_neg h1, if_neg h2]
      simp only [true_iff]
      exact not_lt.mp h1

theorem wLe_refl {E : Type} (a : EventWrapper E) : wLe a a = true :=
  (wLe_iff a a).mpr le_rfl

theorem wLe_of_not_wLe {E : Type} {a b : EventWrapper E}
    (h : ¬ wLe a b = true) : wLe b a = true := by
  rw [wLe_iff] at h ⊢
  exact le_of_not_le h

theorem wLe_trans {E : Type} {a b c : EventWrapper E}
    (h1 : wLe a b = true) (h2 : wLe b c = true) : wLe a c = true := by
  rw [wLe_iff] at h1 h2 ⊢
  exact le_trans h2 h1

/-- Index of the parent of node `i` in the array layout of the binary
heap (`(i - 1) / 2` in the Rust source). -/
def parentIdx (i : ℕ) : ℕ := (i - 1) / 2

theorem parentIdx_lt {i : ℕ} (h : 0 < i) : parentIdx i < i :=
  Nat.lt_of_le_of_lt (Nat.div_le_self _ 2) (Nat.pred_lt (Nat.pos_iff_ne_zero.mp h))

theorem parentIdx_cases {i p : ℕ} (hi : 0 < i) (h : parentIdx i = p) :
    i = 2 * p + 1 ∨ i = 2 * p + 2 := by
  unfold parentIdx at h
  omega

theorem parentIdx_child_left (p : ℕ) : parentIdx (2 * p + 1) = p := by
  unfold parentIdx; omega

theorem parentIdx_child_right (p : ℕ) : parentIdx (2 * p + 2) = p := by
  unfold parentIdx; omega

/-- The `sift_up` loop of Rust's `BinaryHeap::push` (also the final
phase of `sift_down_to_bottom`): the hole is at `pos` and carries the
element `x`; while the hole is not at the root and `x` is greater than
the parent, the parent value moves down into the hole. -/
def siftUpGo {E : Type} (data : List (EventWrapper E)) (x : EventWrapper E)
    (pos : ℕ) : List (EventWrapper E) :=
  if h : pos = 0 then data.set pos x
  else
    if wLe x (data.getD (parentIdx pos) x) then data.set pos x
    else siftUpGo (data.set pos (data.getD (parentIdx pos) x)) x (parentIdx pos)
termination_by pos
decreasing_by exact parentIdx_lt (Nat.pos_of_ne_zero h)

/-- BinaryHeap::push: append the element and sift it up. -/
def heapPush {E : Type} (data : List (EventWrapper E)) (x : EventWrapper E) :
    List (EventWrapper E) :=
  siftUpGo (data ++ [x]) x data.length

/-- Choice of the greater child in `sift_down_to_bottom`: the right
child is taken when `data[child] <= data[child + 1]`. -/
def sdChild {E : Type} (data : List (EventWrapper E)) (x : EventWrapper E)
    (pos : ℕ) : ℕ :=
  if wLe (data.getD (2 * pos + 1) x) (data.getD (2 * pos + 2) x)
  then 2 * pos + 2 else 2 * pos + 1

/-- The descent loop of Rust's `sift_down_to_bottom`: the hole moves to
the greater child all the way to the bottom of the heap; returns the
array and the final hole position. -/
def siftDownLoop {E : Type} (data : List (EventWrapper E)) (x : EventWrapper E)
    (pos : ℕ) : List (EventWrapper E) × ℕ :=
  if h : 2 * pos + 2 < data.length then
    siftDownLoop (data.set pos (data.getD (sdChild data x pos) x)) x
      (sdChild data x pos)
  else if 2 * pos + 1 = data.length - 1 then
    (data.set pos (data.getD (2 * pos + 1) x), 2 * pos + 1)
  else
    (data, pos)
termination_by data.length - pos
decreasing_by
  simp only [List.length_set]
  unfold sdChild
  split <;> omega

/-- Rust's `sift_down_to_bottom(0)`: move the hole to the bottom, then
sift the carried element `x` back up. -/
def siftDownToBottom {E : Type} (data : List (EventWrapper E))
    (x : EventWrapper E) : List (EventWrapper E) :=
  match siftDownLoop data x 0 with
  | (d, pos) => siftUpGo d x pos

/-- BinaryHeap::pop: remove the last element, swap it into the root
slot and sift it down; returns the old root. -/
def heapPop {E : Type} (data : List (EventWrapper E)) :
    Option (EventWrapper E) × List (EventWrapper E) :=
  match data.getLast? with
  | none => (none, data)
  | some item =>
    match data.dropLast with
    | [] => (some item, [])
    | b :: tl => (some b, siftDownToBottom (item :: tl) item)

/-! #### Auxiliary list-indexing lemmas -/

theorem getD_congr {α : Type} (l : List α) (i : ℕ) (d1 d2 : α)
    (h : i < l.length) : l.getD i d1 = l.getD i d2 := by
  rw [List.getD_eq_getElem l d1 h, List.getD_eq_getElem l d2 h]

theorem getD_set_self {α : Type} (l : List α) (i : ℕ) (a d : α)
    (h : i < l.length) : (l.set i a).getD i d = a := by
  rw [List.getD_eq_getElem _ d (by simpa using h)]
  exact List.getElem_set_self (by simpa using h)

theorem getD_set_ne {α : Type} (l : List α) (i j : ℕ) (a d : α)
    (h : i ≠ j) : (l.set i a).getD j d = l.getD j d := by
  by_cases hj : j < l.length
  · rw [List.getD_eq_getElem _ d (by simpa using hj), List.getD_eq_getElem _ d hj]
    exact List.getElem_set_ne h (by simpa using hj)
  · have hj2 : ¬ j < (l.set i a).length := by simpa using hj
    rw [List.getD_eq_getElem?_getD, List.getD_eq_getElem?_getD]
    rw [List.getElem?_eq_none (by omega), List.getElem?_eq_none (by omega)]

theorem multiset_set {α : Type} (l : List α) (i : ℕ) (a d : α)
    (h : i < l.length) :
    (↑(l.set i a) : Multiset α) + {l.getD i d} = (↑l : Multiset α) + {a} := by
  induction l generalizing i with
  | nil => simp at h
  | cons hd tl ih =>
    cases i with
    | zero =>
      show ((a :: tl : List α) : Multiset α) + {hd} =
        ((hd :: tl : List α) : Multiset α) + {a}
      rw [← Multiset.cons_coe, ← Multiset.cons_coe, add_comm,
        add_comm _ ({a} : Multiset α), Multiset.singleton_add,
        Multiset.singleton_add, Multiset.cons_swap]
    | succ n =>
      have hn : n < tl.length := by simpa using h
      show ((hd :: tl.set n a : List α) : Multiset α) + {tl.getD n d} =
        ((hd :: tl : List α) : Multiset α) + {a}
      rw [← Multiset.cons_coe, ← Multiset.cons_coe, Multiset.cons_add,
        Multiset.cons_add]
      exact congrArg _ (ih n hn)

/-- Writing the value read at `q` into position `pos` and then `x`
into position `q` leaves the same multiset of elements as writing `x`
directly into position `pos` (one step of a hole move). -/
theorem set_set_multiset {α : Type} (data : List α) (pos q : ℕ) (x d : α)
    (hq : q < data.length) (hpos : pos < data.length) (hne : pos ≠ q) :
    (↑((data.set pos (data.getD q d)).set q x) : Multiset α) =
      ↑(data.set pos x) := by
  have hq2 : q < (data.set pos (data.getD q d)).length := by simpa using hq
  have e1 := multiset_set (data.set pos (data.getD q d)) q x d hq2
  rw [getD_set_ne data pos q _ d hne] at e1
  have e2 := multiset_set data pos (data.getD q d) d hpos
  have e3 := multiset_set data pos x d hpos
  have key :
      (↑((data.set pos (data.getD q d)).set q x) : Multiset α) +
          ({data.getD q d} + {data.getD pos d}) =
        (↑(data.set pos x) : Multiset α) +
          ({data.getD q d} + {data.getD pos d}) := by
    calc
      (↑((data.set pos (data.getD q d)).set q x) : Multiset α) +
          ({data.getD q d} + {data.getD pos d})
        = ((↑((data.set pos (data.getD q d)).set q x) : Multiset α) +
            {data.getD q d}) + {data.getD pos d} := by rw [add_assoc]
      _ = ((↑(data.set pos (data.getD q d)) : Multiset α) + {x}) +
            {data.getD pos d} := by rw [e1]
      _ = ((↑(data.set pos (data.getD q d)) : Multiset α) +
            {data.getD pos d}) + {x} := add_right_comm _ _ _
      _ = ((↑data : Multiset α) + {data.getD q d}) + {x} := by rw [e2]
      _ = ((↑data : Multiset α) + {x}) + {data.getD q d} := add_right_comm _ _ _
      _ = ((↑(data.set pos x) : Multiset α) + {data.getD pos d}) +
            {data.getD q d} := by rw [e3]
      _ = (↑(data.set pos x) : Multiset α) +
            ({data.getD q d} + {data.getD pos d}) := by
          rw [add_assoc, add_comm ({data.getD pos d} : Multiset α)]
  exact add_right_cancel key

/-! #### The heap invariant -/

/-- The binary-heap property for the array layout used by Rust's
`BinaryHeap`: every non-root node is `<=` its parent in the wrapper
order (so the root has the smallest time). -/
def IsHeap {E : Type} (l : List (EventWrapper E)) : Prop :=
  ∀ i, 0 < i → i < l.length → ∀ d,
    wLe (l.getD i d) (l.getD (parentIdx i) d) = true

theorem isHeap_root_le {E : Type} {l : List (EventWrapper E)} (hl : IsHeap l) :
    ∀ i, i < l.length → ∀ d, wLe (l.getD i d) (l.getD 0 d) = true := by
  intro i
  induction i using Nat.strong_induction_on with
  | _ i ih =>
    intro h d
    rcases Nat.eq_zero_or_pos i with hi | hi
    · subst hi; exact wLe_refl _
    · exact wLe_trans (hl i hi h d)
        (ih (parentIdx i) (parentIdx_lt hi) (lt_trans (parentIdx_lt hi) h) d)

/-- Invariant of the `sift_up` loop: the hole is at `pos` and carries
`x`.  With `x` written into the hole the array is a heap except
possibly on the edge from `pos` to its parent, and the children of
`pos` are additionally below the value at the parent of `pos`. -/
def SiftUpInv {E : Type} (data : List (EventWrapper E)) (x : EventWrapper E)
    (pos : ℕ) : Prop :=
  (∀ i, 0 < i → i < data.length → i ≠ pos → parentIdx i ≠ pos →
     wLe (data.getD i x) (data.getD (parentIdx i) x) = true) ∧
  (∀ i, 0 < i → i < data.length → parentIdx i = pos →
     wLe (data.getD i x) x = true) ∧
  (∀ c, c < data.length → parentIdx c = pos → 0 < pos →
     wLe (data.getD c x) (data.getD (parentIdx pos) x) = true)

/-- Invariant of the descent loop of `sift_down_to_bottom`: the hole
is at `pos`, its slot content is stale; all edges not touching the
hole hold, and the children of the hole are below the hole's parent. -/
def DownInv {E : Type} (data : List (EventWrapper E)) (x : EventWrapper E)
    (pos : ℕ) : Prop :=
  (∀ i, 0 < i → i < data.length → i ≠ pos → parentIdx i ≠ pos →
     wLe (data.getD i x) (data.getD (parentIdx i) x) = true) ∧
  (∀ c, c < data.length → parentIdx c = pos → 0 < pos →
     wLe (data.getD c x) (data.getD (parentIdx pos) x) = true)

/-! #### Correctness of the sift operations -/

theorem siftUpGo_multiset {E : Type} (pos : ℕ) :
    ∀ (data : List (EventWrapper E)) (x : EventWrapper E),
      pos < data.length →
      (↑(siftUpGo data x pos) : Multiset (EventWrapper E)) =
        ↑(data.set pos x) := by
  induction pos using Nat.strong_induction_on with
  | _ pos ih =>
    intro data x hpos
    rw [siftUpGo]
    by_cases h0 : pos = 0
    · rw [dif_pos h0]
    · rw [dif_neg h0]
      by_cases hle : wLe x (data.getD (parentIdx pos) x) = true
      · rw [if_pos hle]
      · rw [if_neg hle]
        have hp0 : 0 < pos := Nat.pos_of_ne_zero h0
        have hplt : parentIdx pos < pos := parentIdx_lt hp0
        have hplen : parentIdx pos < data.length := lt_trans hplt hpos
        rw [ih (parentIdx pos) hplt _ x (by simpa using hplen)]
        exact set_set_multiset data pos (parentIdx pos) x x hplen hpos
          (ne_of_gt hplt)

/-- If with `x` written at `pos` every non-hole edge holds and the
hole's children are below the hole's parent, then writing `x` at `pos`
yields a heap provided `x` is below the hole's parent. -/
theorem isHeap_set_of_inv {E : Type} (data : List (EventWrapper E))
    (x : EventWrapper E) (pos : ℕ) (hpos : pos < data.length)
    (ha : ∀ i, 0 < i → i < data.length → i ≠ pos → parentIdx i ≠ pos →
      wLe (data.getD i x) (data.getD (parentIdx i) x) = true)
    (ha2 : ∀ i, 0 < i → i < data.length → parentIdx i = pos →
      wLe (data.getD i x) x = true)
    (hedge : 0 < pos → wLe x (data.getD (parentIdx pos) x) = true) :
    IsHeap (data.set pos x) := by
  intro i hi hlen d
  have hlen2 : i < data.length := by simpa using hlen
  have hplt : parentIdx i < i := parentIdx_lt hi
  have hplen : parentIdx i < data.length := lt_trans hplt hlen2
  by_cases hip : i = pos
  · subst hip
    rw [getD_set_self data i x d hlen2,
      getD_set_ne data i (parentIdx i) x d (ne_of_gt hplt),
      getD_congr data (parentIdx i) d x hplen]
    exact hedge hi
  · rw [getD_set_ne data pos i x d (fun hc => hip hc.symm),
      getD_congr data i d x hlen2]
    by_cases hpi : parentIdx i = pos
    · rw [hpi, getD_set_self data pos x d hpos]
      exact ha2 i hi hlen2 hpi
    · rw [getD_set_ne data pos (parentIdx i) x d (fun hc => hpi hc.symm),
        getD_congr data (parentIdx i) d x hplen]
      exact ha i hi hlen2 hip hpi

theorem siftUpGo_isHeap {E : Type} (pos : ℕ) :
    ∀ (data : List (EventWrapper E)) (x : EventWrapper E),
      pos < data.length → SiftUpInv data x pos →
      IsHeap (siftUpGo data x pos) := by
  induction pos using Nat.strong_induction_on with
  | _ pos ih =>
    intro data x hpos hinv
    obtain ⟨ha, ha2, hb⟩ := hinv
    rw [siftUpGo]
    by_cases h0 : pos = 0
    · rw [dif_pos h0]
      subst h0
      exact isHeap_set_of_inv data x 0 hpos ha ha2 (fun hc => absurd hc (by omega))
    · rw [dif_neg h0]
      have hp0 : 0 < pos := Nat.pos_of_ne_zero h0
      have hplt : parentIdx pos < pos := parentIdx_lt hp0
      have hplen : parentIdx pos < data.length := lt_trans hplt hpos
      by_cases hle : wLe x (data.getD (parentIdx pos) x) = true
      · rw [if_pos hle]
        exact isHeap_set_of_inv data x pos hpos ha ha2 (fun _ => hle)
      · rw [if_neg hle]
        have hpvx : wLe (data.getD (parentIdx pos) x) x = true :=
          wLe_of_not_wLe hle
        apply ih (parentIdx pos) hplt _ x (by simpa using hplen)
        set p := parentIdx pos with hp
        set pv := data.getD p x with hpv
        have hsetlen : (data.set pos pv).length = data.length := by simp
        refine ⟨?_, ?_, ?_⟩
        · -- non-hole edges for the new hole at p
          intro i hi hlen hip hpip
          by_cases hipos : i = pos
          · exact absurd (hipos ▸ hp.symm) hpip
          · rw [getD_set_ne data pos i pv x (fun hc => hipos hc.symm)]
            by_cases hpi : parentIdx i = pos
            · rw [hpi, getD_set_self data pos pv x hpos]
              exact hb i (by simpa [hsetlen] using hlen) hpi hp0
            · rw [getD_set_ne data pos (parentIdx i) pv x (fun hc => hpi hc.symm)]
              exact ha i hi (by simpa [hsetlen] using hlen) hipos hpi
        · -- children of the new hole p are below x
          intro i hi hlen hpi
          by_cases hipos : i = pos
          · subst hipos
            rw [getD_set_self data i pv x hpos]
            exact hpvx
          · rw [getD_set_ne data pos i pv x (fun hc => hipos hc.symm)]
            have hpine : parentIdx i ≠ pos := by rw [hpi]; exact ne_of_lt hplt
            have h1 := ha i hi (by simpa [hsetlen] using hlen) hipos hpine
            rw [hpi] at h1
            exact wLe_trans h1 hpvx
        · -- children of p are below p's parent
          intro c hc hpc hpp0
          have hpplt : parentIdx p < p := parentIdx_lt hpp0
          have hppne : parentIdx p ≠ pos := ne_of_lt (lt_trans hpplt hplt)
          rw [getD_set_ne data pos (parentIdx p) pv x (fun hcc => hppne hcc.symm)]
          have hstep : wLe (data.getD p x) (data.getD (parentIdx p) x) = true :=
            ha p hpp0 hplen (ne_of_lt hplt) hppne
          by_cases hcpos : c = pos
          · subst hcpos
            rw [getD_set_self data c pv x hpos]
            exact hstep
          · rw [getD_set_ne data pos c pv x (fun hcc => hcpos hcc.symm)]
            have hc0 : 0 < c := by
              rcases Nat.eq_zero_or_pos c with hc0 | hc0
              · subst hc0
                have hz : parentIdx 0 = 0 := by unfold parentIdx; omega
                rw [hz] at hpc
                omega
              · exact hc0
            have h1 := ha c hc0 (by simpa [hsetlen] using hc) hcpos
              (by rw [hpc]; exact ne_of_lt hplt)
            rw [hpc] at h1
            exact wLe_trans h1 hstep

theorem sdChild_gt {E : Type} (data : List (EventWrapper E)) (x : EventWrapper E)
    (pos : ℕ) : pos < sdChild data x pos := by
  unfold sdChild; split <;> omega

theorem sdChild_le {E : Type} (data : List (EventWrapper E)) (x : EventWrapper E)
    (pos : ℕ) : sdChild data x pos ≤ 2 * pos + 2 := by
  unfold sdChild; split <;> omega

theorem sdChild_parent {E : Type} (data : List (EventWrapper E))
    (x : EventWrapper E) (pos : ℕ) : parentIdx (sdChild data x pos) = pos := by
  unfold sdChild; split
  · exact parentIdx_child_right pos
  · exact parentIdx_child_left pos

theorem sdChild_max {E : Type} (data : List (EventWrapper E)) (x : EventWrapper E)
    (pos : ℕ) (i : ℕ) (hi : 0 < i) (hpi : parentIdx i = pos)
    (hne : i ≠ sdChild data x pos) :
    wLe (data.getD i x) (data.getD (sdChild data x pos) x) = true := by
  by_cases hcond : wLe (data.getD (2 * pos + 1) x) (data.getD (2 * pos + 2) x) = true
  · have hcc : sdChild data x pos = 2 * pos + 2 := by
      unfold sdChild; rw [if_pos hcond]
    rcases parentIdx_cases hi hpi with hil | hir
    · rw [hcc, hil]; exact hcond
    · exact absurd (hir.trans hcc.symm) hne
  · have hcc : sdChild data x pos = 2 * pos + 1 := by
      unfold sdChild; rw [if_neg hcond]
    rcases parentIdx_cases hi hpi with hil | hir
    · exact absurd (hil.trans hcc.symm) hne
    · rw [hcc, hir]; exact wLe_of_not_wLe hcond

theorem siftDownLoop_spec {E : Type} (n : ℕ) :
    ∀ (data : List (EventWrapper E)) (x : EventWrapper E) (pos : ℕ),
      data.length - pos = n → pos < data.length → DownInv data x pos →
      (siftDownLoop data x pos).2 < (siftDownLoop data x pos).1.length ∧
      (siftDownLoop data x pos).1.length = data.length ∧
      SiftUpInv (siftDownLoop data x pos).1 x (siftDownLoop data x pos).2 ∧
      (↑((siftDownLoop data x pos).1.set (siftDownLoop data x pos).2 x) :
          Multiset (EventWrapper E)) = ↑(data.set pos x) := by
  induction n using Nat.strong_induction_on with
  | _ n ih =>
    intro data x pos hn hpos hinv
    obtain ⟨da, db⟩ := hinv
    rw [siftDownLoop]
    by_cases h : 2 * pos + 2 < data.length
    · rw [dif_pos h]
      set c := sdChild data x pos with hc
      set m := data.getD c x with hm
      have hcgt : pos < c := sdChild_gt data x pos
      have hc2 : c < data.length := lt_of_le_of_lt (sdChild_le data x pos) h
      have hcp : parentIdx c = pos := sdChild_parent data x pos
      have hlen' : (data.set pos m).length = data.length := by simp
      have hinv' : DownInv (data.set pos m) x c := by
        constructor
        · intro i hi hleni hic hpic
          rw [hlen'] at hleni
          by_cases hipos : i = pos
          · subst hipos
            rw [getD_set_self data i m x hpos]
            have hplt : parentIdx i < i := parentIdx_lt hi
            rw [getD_set_ne data i (parentIdx i) m x (ne_of_gt hplt)]
            exact db c hc2 hcp hi
          · rw [getD_set_ne data pos i m x (fun hcc => hipos hcc.symm)]
            by_cases hpi : parentIdx i = pos
            · rw [hpi, getD_set_self data pos m x hpos]
              have hi0 : 0 < i := by
                rcases Nat.eq_zero_or_pos i with h0 | h0
                · subst h0
                  have hz : parentIdx 0 = 0 := by unfold parentIdx; omega
                  rw [hz] at hpi
                  exact absurd hpi hipos
                · exact h0
              exact sdChild_max data x pos i hi0 hpi hic
            · rw [getD_set_ne data pos (parentIdx i) m x (fun hcc => hpi hcc.symm)]
              exact da i hi hleni hipos hpi
        · intro g hg hpg hc0
          rw [hlen'] at hg
          rw [hcp, getD_set_self data pos m x hpos]
          have hg0 : 0 < g := by
            rcases Nat.eq_zero_or_pos g with h0 | h0
            · subst h0
              have hz : parentIdx 0 = 0 := by unfold parentIdx; omega
              rw [hz] at hpg
              omega
            · exact h0
          have hgc : c < g := by
            rcases parentIdx_cases hg0 hpg with h1 | h1 <;> omega
          have hgpos : g ≠ pos := by omega
          rw [getD_set_ne data pos g m x (fun hcc => hgpos hcc.symm)]
          have h1 := da g hg0 hg hgpos (by rw [hpg]; exact ne_of_gt hcgt)
          rw [hpg] at h1
          exact h1
      have hrec := ih ((data.set pos m).length - c) (by rw [hlen']; omega)
        (data.set pos m) x c rfl (by rw [hlen']; exact hc2) hinv'
      refine ⟨hrec.1, ?_, hrec.2.2.1, ?_⟩
      · rw [hrec.2.1, hlen']
      · rw [hrec.2.2.2]
        exact set_set_multiset data pos c x x hc2 hpos (ne_of_lt hcgt)
    · rw [dif_neg h]
      by_cases h2 : 2 * pos + 1 = data.length - 1
      · rw [if_pos h2]
        dsimp only
        have hlen_eq : data.length = 2 * pos + 2 := by omega
        have hchild : 2 * pos + 1 < data.length := by omega
        set m := data.getD (2 * pos + 1) x with hm
        have hlen' : (data.set pos m).length = data.length := by simp
        refine ⟨by rw [hlen']; omega, hlen', ⟨?_, ?_, ?_⟩, ?_⟩
        · intro i hi hleni hic hpic
          rw [hlen'] at hleni
          by_cases hipos : i = pos
          · rw [hipos, getD_set_self data pos m x hpos]
            have hp0 : 0 < pos := hipos ▸ hi
            have hplt : parentIdx pos < pos := parentIdx_lt hp0
            rw [getD_set_ne data pos (parentIdx pos) m x (ne_of_gt hplt)]
            exact db (2 * pos + 1) hchild (parentIdx_child_left pos) hp0
          · by_cases hpi : parentIdx i = pos
            · exfalso
              rcases parentIdx_cases hi hpi with h1 | h1 <;> omega
            · rw [getD_set_ne data pos i m x (fun hcc => hipos hcc.symm),
                getD_set_ne data pos (parentIdx i) m x (fun hcc => hpi hcc.symm)]
              exact da i hi hleni hipos hpi
        · intro i hi hleni hpi
          exfalso
          rw [hlen'] at hleni
          rcases parentIdx_cases hi hpi with h1 | h1 <;> omega
        · intro g hg hpg hg0
          exfalso
          rw [hlen'] at hg
          have hgpos : 0 < g := by
            rcases Nat.eq_zero_or_pos g with h0 | h0
            · subst h0
              have hz : parentIdx 0 = 0 := by unfold parentIdx; omega
              rw [hz] at hpg
              omega
            · exact h0
          rcases parentIdx_cases hgpos hpg with h1 | h1 <;> omega
        · exact set_set_multiset data pos (2 * pos + 1) x x hchild hpos (by omega)
      · rw [if_neg h2]
        dsimp only
        have hnochild : data.length ≤ 2 * pos + 1 := by omega
        refine ⟨hpos, rfl, ⟨?_, ?_, ?_⟩, rfl⟩
        · intro i hi hleni hipos hpi
          exact da i hi hleni hipos hpi
        · intro i hi hleni hpi
          exfalso
          rcases parentIdx_cases hi hpi with h1 | h1 <;> omega
        · intro g hg hpg hg0
          exfalso
          have hgpos : 0 < g := by
            rcases Nat.eq_zero_or_pos g with h0 | h0
            · subst h0
              have hz : parentIdx 0 = 0 := by unfold parentIdx; omega
              rw [hz] at hpg
              omega
            · exact h0
          rcases parentIdx_cases hgpos hpg with h1 | h1 <;> omega

/-- `sift_down_to_bottom` turns a heap-except-at-the-root array into a
heap, preserving the multiset of elements (with the carried element
`x` standing for the root slot). -/
theorem siftDownToBottom_spec {E : Type} (data : List (EventWrapper E))
    (x : EventWrapper E) (hpos : 0 < data.length) (hinv : DownInv data x 0) :
    IsHeap (siftDownToBottom data x) ∧
      (↑(siftDownToBottom data x) : Multiset (EventWrapper E)) =
        ↑(data.set 0 x) := by
  have hs := siftDownLoop_spec (data.length - 0) data x 0 rfl hpos hinv
  unfold siftDownToBottom
  constructor
  · exact siftUpGo_isHeap (siftDownLoop data x 0).2 (siftDownLoop data x 0).1 x
      hs.1 hs.2.2.1
  · rw [siftUpGo_multiset (siftDownLoop data x 0).2 (siftDownLoop data x 0).1 x hs.1]
    exact hs.2.2.2

theorem heapPush_isHeap {E : Type} (data : List (EventWrapper E))
    (x : EventWrapper E) (hd : IsHeap data) : IsHeap (heapPush data x) := by
  unfold heapPush
  apply siftUpGo_isHeap data.length (data ++ [x]) x (by simp)
  refine ⟨?_, ?_, ?_⟩
  · intro i hi hlen hip hpip
    have hlen2 : i < data.length := by
      have : i < data.length + 1 := by simpa using hlen
      omega
    have hplen : parentIdx i < data.length := lt_trans (parentIdx_lt hi) hlen2
    rw [List.getD_append data [x] x i hlen2,
      List.getD_append data [x] x (parentIdx i) hplen]
    exact hd i hi hlen2 x
  · intro i hi hlen hpi
    have hlen2 : i < data.length + 1 := by simpa using hlen
    rcases parentIdx_cases hi hpi with h1 | h1 <;> omega
  · intro c hc hpc hpos
    have hc2 : c < data.length + 1 := by simpa using hc
    have hc0 : 0 < c := by
      rcases Nat.eq_zero_or_pos c with h0 | h0
      · subst h0
        have hz : parentIdx 0 = 0 := by unfold parentIdx; omega
        rw [hz] at hpc
        omega
      · exact h0
    rcases parentIdx_cases hc0 hpc with h1 | h1 <;> omega

theorem heapPush_multiset {E : Type} (data : List (EventWrapper E))
    (x : EventWrapper E) :
    (↑(heapPush data x) : Multiset (EventWrapper E)) = x ::ₘ ↑data := by
  unfold heapPush
  rw [siftUpGo_multiset data.length (data ++ [x]) x (by simp)]
  have hlen : data.length < (data ++ [x]).length := by simp
  have e1 := multiset_set (data ++ [x]) data.length x x hlen
  have hget : (data ++ [x]).getD data.length x = x := by
    rw [List.getD_eq_getElem _ x hlen]
    exact List.getElem_concat_length data x data.length rfl hlen
  rw [hget] at e1
  have e2 := add_right_cancel e1
  rw [e2]
  show (↑data : Multiset (EventWrapper E)) + ↑[x] = x ::ₘ ↑data
  rw [add_comm]
  rfl

theorem mem_heapPush {E : Type} {data : List (EventWrapper E)}
    {x w : EventWrapper E} (h : w ∈ heapPush data x) : w = x ∨ w ∈ data := by
  have : w ∈ (↑(heapPush data x) : Multiset (EventWrapper E)) := h
  rw [heapPush_multiset] at this
  rcases Multiset.mem_cons.mp this with h1 | h1
  · exact Or.inl h1
  · exact Or.inr h1

theorem heapPop_spec {E : Type} (data : List (EventWrapper E))
    (hheap : IsHeap data) :
    (data = [] → heapPop data = (none, data)) ∧
    (∀ w rest, heapPop data = (some w, rest) →
      (↑data : Multiset (EventWrapper E)) = w ::ₘ ↑rest ∧
      (∀ w' ∈ data, wLe w' w = true) ∧ IsHeap rest) := by
  match data with
  | [] => exact ⟨fun _ => rfl, fun w rest h => by simp [heapPop] at h⟩
  | [a] =>
    refine ⟨fun h => absurd h (by simp), ?_⟩
    intro w rest h
    have hra : heapPop [a] =
        ((some a : Option (EventWrapper E)), ([] : List (EventWrapper E))) := rfl
    rw [hra] at h
    have hweq : a = w := Option.some.inj (congrArg Prod.fst h)
    have hrest : ([] : List (EventWrapper E)) = rest := congrArg Prod.snd h
    subst hweq
    subst hrest
    refine ⟨by rfl, ?_, ?_⟩
    · intro w' hw'
      rcases List.mem_singleton.mp hw' with rfl
      exact wLe_refl _
    · intro i hi hlen d
      simp at hlen
  | a :: a2 :: tl2 =>
    refine ⟨fun h => absurd h (by simp), ?_⟩
    intro w rest h
    set item := (a :: a2 :: tl2).getLast (by simp) with hitem
    set tl := (a2 :: tl2).dropLast with htl
    have hdrop : (a :: a2 :: tl2).dropLast = a :: tl := rfl
    have hlast : (a :: a2 :: tl2).getLast? = some item :=
      List.getLast?_eq_getLast _ (by simp)
    have hpop : heapPop (a :: a2 :: tl2) =
        (some a, siftDownToBottom (item :: tl) item) := by
      unfold heapPop
      rw [hlast, hdrop]
    rw [hpop] at h
    have hweq : a = w := Option.some.inj (congrArg Prod.fst h)
    have hrest : siftDownToBottom (item :: tl) item = rest := congrArg Prod.snd h
    have hrep : (a :: a2 :: tl2) = a :: tl ++ [item] := by
      have := List.dropLast_concat_getLast (l := a :: a2 :: tl2) (by simp)
      rw [hdrop] at this
      exact this.symm
    have hlen_rep : (a :: a2 :: tl2).length = tl.length + 2 := by
      rw [hrep]; simp
    -- agreement of the sift array with the original heap away from slot 0
    have hagree : ∀ j d, 0 < j → j < tl.length + 1 →
        (item :: tl).getD j d = (a :: a2 :: tl2).getD j d := by
      intro j d hj hjlen
      obtain ⟨k, rfl⟩ : ∃ k, j = k + 1 := ⟨j - 1, by omega⟩
      have hk : k < tl.length := by omega
      show tl.getD k d = (a :: a2 :: tl2).getD (k + 1) d
      rw [hrep]
      show tl.getD k d = (tl ++ [item]).getD k d
      rw [List.getD_append tl [item] d k hk]
    have hinv : DownInv (item :: tl) item 0 := by
      constructor
      · intro i hi hlen hi0 hpi0
        have hlen2 : i < tl.length + 1 := by simpa using hlen
        have hp0 : 0 < parentIdx i := Nat.pos_of_ne_zero hpi0
        have hplt : parentIdx i < i := parentIdx_lt hi
        rw [hagree i item hi hlen2, hagree (parentIdx i) item hp0 (by omega)]
        exact hheap i hi (by rw [hlen_rep]; omega) item
      · intro c hc hpc h0
        exact absurd h0 (by omega)
    have hsize : 0 < (item :: tl).length := by simp
    obtain ⟨hresheap, hresmul⟩ := siftDownToBottom_spec (item :: tl) item hsize hinv
    subst hweq
    subst hrest
    refine ⟨?_, ?_, hresheap⟩
    · rw [hresmul]
      show (↑(a :: a2 :: tl2) : Multiset (EventWrapper E)) =
        a ::ₘ ↑((item :: tl).set 0 item)
      have hset : (item :: tl).set 0 item = item :: tl := rfl
      rw [hset, hrep]
      show ↑(a :: (tl ++ [item])) = a ::ₘ ↑(item :: tl)
      rw [← Multiset.cons_coe, ← Multiset.cons_coe]
      congr 1
      show (↑tl : Multiset (EventWrapper E)) + ↑[item] = item ::ₘ ↑tl
      rw [add_comm]
      rfl
    · intro w' hw'
      rcases List.mem_iff_getElem.mp hw' with ⟨i, hilen, hieq⟩
      have h1 := isHeap_root_le hheap i hilen w'
      rw [List.getD_eq_getElem _ w' hilen, hieq] at h1
      have h0 : (a :: a2 :: tl2).getD 0 w' = a := rfl
      rw [h0] at h1
      exact h1

/-- Engine from gd-engine: current virtual time and the event heap. -/
structure Engine (E : Type) where
  now : ℚ
  events : List (EventWrapper E)
deriving DecidableEq

/-- Engine::default / Engine::new. -/
def Engine.empty (E : Type) : Engine E := ⟨0, []⟩

/-- Engine::schedule: push an event at absolute time `now + after`. -/
def Engine.schedule {E : Type} (eng : Engine E) (after : ℚ) (ev : E) :
    Engine E :=
  { eng with events := heapPush eng.events ⟨eng.now + after, ev⟩ }

/-- Engine::pop: pop the greatest wrapper (smallest time); on success
`now` is set to the popped event's time. An empty heap leaves the
engine unchanged. -/
def Engine.pop {E : Type} (eng : Engine E) : Option E × Engine E :=
  match heapPop eng.events with
  | (none, _) => (none, eng)
  | (some w, rest) => (some w.event, { now := w.time, events := rest })

/-- States of the engine reachable by the simulator: starting from
`Engine::new`, scheduling events with the nonnegative delays the
simulator always uses, and popping. -/
inductive Reachable {E : Type} : Engine E → Prop
  | empty : Reachable (Engine.empty E)
  | schedule {eng : Engine E} {after : ℚ} {ev : E} :
      Reachable eng → 0 ≤ after → Reachable (eng.schedule after ev)
  | pop {eng : Engine E} : Reachable eng → Reachable (eng.pop).2

/-- Invariant maintained by the engine: the event array is a binary
heap, and every queued event lies at or after the current time. -/
def EngineInv {E : Type} (eng : Engine E) : Prop :=
  IsHeap eng.events ∧ ∀ w ∈ eng.events, eng.now ≤ w.time

theorem reachable_inv {E : Type} {eng : Engine E} (h : Reachable eng) :
    EngineInv eng := by
  induction h with
  | empty =>
    constructor
    · intro i hi hlen d
      simp [Engine.empty] at hlen
    · intro w hw
      simp [Engine.empty] at hw
  | schedule hr hafter ih =>
    obtain ⟨hh, hmem⟩ := ih
    refine ⟨heapPush_isHeap _ _ hh, ?_⟩
    intro w hw
    rcases mem_heapPush hw with rfl | hw2
    · simp only [Engine.schedule]
      linarith
    · exact hmem w hw2
  | pop hr ih =>
    obtain ⟨hh, hmem⟩ := ih
    rename_i eng2
    rcases hpop : heapPop eng2.events with ⟨o, rest⟩
    cases o with
    | none =>
      have : eng2.pop = (none, eng2) := by
        unfold Engine.pop
        rw [hpop]
      rw [this]
      exact ⟨hh, hmem⟩
    | some w =>
      have hpe : eng2.pop = (some w.event, { now := w.time, events := rest }) := by
        unfold Engine.pop
        rw [hpop]
      rw [hpe]
      obtain ⟨hmul, hmax, hresheap⟩ := (heapPop_spec eng2.events hh).2 w rest hpop
      refine ⟨hresheap, ?_⟩
      intro w' hw'
      have hmem2 : w' ∈ eng2.events := by
        have : w' ∈ (↑eng2.events : Multiset (EventWrapper E)) := by
          rw [hmul]
          exact Multiset.mem_cons_of_mem hw'
        exact this
      have := hmax w' hmem2
      exact (wLe_iff w' w).mp this

/-- C2: on every reachable engine state, `pop` on an empty queue
returns `none` and leaves the engine (in particular `now`) unchanged;
a successful `pop` removes and returns an event whose scheduled time
is minimal among the queued events, sets `now` to exactly that event's
time, never decreases `now`, and leaves only events at or after the
new `now` (hence the times of successively popped events are
non-decreasing). -/
theorem engine_pop_spec {E : Type} (eng : Engine E) (hr : Reachable eng) :
    (eng.events = [] → eng.pop = (none, eng)) ∧
    (∀ ev eng', eng.pop = (some ev, eng') →
      ∃ w : EventWrapper E, w ∈ eng.events ∧ w.event = ev ∧
        eng'.now = w.time ∧ eng.now ≤ eng'.now ∧
        (∀ w' ∈ eng.events, w.time ≤ w'.time) ∧
        (∀ w' ∈ eng'.events, eng'.now ≤ w'.time) ∧
        (↑eng.events : Multiset (EventWrapper E)) = w ::ₘ ↑eng'.events) := by
  obtain ⟨hh, hmem⟩ := reachable_inv hr
  constructor
  · intro hnil
    unfold Engine.pop
    rw [(heapPop_spec eng.events hh).1 hnil]
  · intro ev eng' hpe
    rcases hpop : heapPop eng.events with ⟨o, rest⟩
    cases o with
    | none =>
      unfold Engine.pop at hpe
      rw [hpop] at hpe
      exact absurd (congrArg Prod.fst hpe) (by simp)
    | some w =>
      unfold Engine.pop at hpe
      rw [hpop] at hpe
      have hev : w.event = ev := Option.some.inj (congrArg Prod.fst hpe)
      have heng : ({ now := w.time, events := rest } : Engine E) = eng' :=
        congrArg Prod.snd hpe
      obtain ⟨hmul, hmax, hresheap⟩ := (heapPop_spec eng.events hh).2 w rest hpop
      have hwmem : w ∈ eng.events := by
        have : w ∈ (↑eng.events : Multiset (EventWrapper E)) := by
          rw [hmul]
          exact Multiset.mem_cons_self w _
        exact this
      refine ⟨w, hwmem, hev, ?_, ?_, ?_, ?_, ?_⟩
      · rw [← heng]
      · rw [← heng]
        exact hmem w hwmem
      · intro w' hw'
        exact (wLe_iff w' w).mp (hmax w' hw')
      · intro w' hw'
        rw [← heng] at hw' ⊢
        have hmem2 : w' ∈ eng.events := by
          have : w' ∈ (↑eng.events : Multiset (EventWrapper E)) := by
            rw [hmul]
            exact Multiset.mem_cons_of_mem hw'
          exact this
        exact (wLe_iff w' w).mp (hmax w' hmem2)
      · rw [← heng]
        exact hmul

theorem siftUpGo_zero {E : Type} (data : List (EventWrapper E))
    (x : EventWrapper E) : siftUpGo data x 0 = data.set 0 x := by
  rw [siftUpGo]
  rw [dif_pos rfl]

theorem heapPush_nil {E : Type} (x : EventWrapper E) :
    heapPush ([] : List (EventWrapper E)) x = [x] := by
  unfold heapPush
  show siftUpGo [x] x 0 = [x]
  rw [siftUpGo_zero]
  rfl

theorem heapPush_pair {E : Type} (w1 w2 : EventWrapper E)
    (h : wLe w2 w1 = true) : heapPush [w1] w2 = [w1, w2] := by
  unfold heapPush
  show siftUpGo [w1, w2] w2 1 = [w1, w2]
  rw [siftUpGo]
  rw [dif_neg one_ne_zero]
  have hp : parentIdx 1 = 0 := by unfold parentIdx; omega
  rw [hp]
  rw [if_pos (by exact h)]
  rfl

theorem siftDownToBottom_single {E : Type} (w x : EventWrapper E) :
    siftDownToBottom [w] x = [x] := by
  unfold siftDownToBottom
  have h1 : siftDownLoop [w] x 0 = ([w], 0) := by
    rw [siftDownLoop]
    norm_num
  rw [h1]
  show siftUpGo [w] x 0 = [x]
  rw [siftUpGo_zero]
  rfl

theorem heapPop_pair {E : Type} (w1 w2 : EventWrapper E) :
    heapPop [w1, w2] = (some w1, siftDownToBottom [w2] w2) := rfl

/-- C2 witness at a concrete reachable engine: two events scheduled
at delays 1 and 2 from the initial engine. -/
theorem engine_pop_spec_witness :
    ((((Engine.empty ℕ).schedule 1 10).schedule 2 20).events = [] →
      (((Engine.empty ℕ).schedule 1 10).schedule 2 20).pop =
        (none, ((Engine.empty ℕ).schedule 1 10).schedule 2 20)) ∧
    (∀ ev eng', (((Engine.empty ℕ).schedule 1 10).schedule 2 20).pop =
        (some ev, eng') →
      ∃ w : EventWrapper ℕ,
        w ∈ (((Engine.empty ℕ).schedule 1 10).schedule 2 20).events ∧
        w.event = ev ∧ eng'.now = w.time ∧
        (((Engine.empty ℕ).schedule 1 10).schedule 2 20).now ≤ eng'.now ∧
        (∀ w' ∈ (((Engine.empty ℕ).schedule 1 10).schedule 2 20).events,
          w.time ≤ w'.time) ∧
        (∀ w' ∈ eng'.events, eng'.now ≤ w'.time) ∧
        (↑(((Engine.empty ℕ).schedule 1 10).schedule 2 20).events :
            Multiset (EventWrapper ℕ)) = w ::ₘ ↑eng'.events) :=
  engine_pop_spec (((Engine.empty ℕ).schedule 1 10).schedule 2 20)
    (Reachable.schedule
      (Reachable.schedule Reachable.empty (by norm_num)) (by norm_num))

/-- C3 counterexample: four events are scheduled at the same absolute
time 0 in the order 1, 2, 3, 4; the second pop returns event 3, not
event 2, so equal-time events are not popped in FIFO insertion order
(`BinaryHeap` is not stable). -/
theorem engine_equal_time_not_fifo :
    (((((Engine.empty ℕ).schedule 0 1).schedule 0 2).schedule 0 3).schedule
        0 4).pop.2.pop.1 = some 3 ∧ (3 : ℕ) ≠ 2 := by
  have hww : ∀ i j : ℕ,
      wLe (⟨0 + 0, i⟩ : EventWrapper ℕ) ⟨0 + 0, j⟩ = true :=
    fun i j => (wLe_iff _ _).mpr le_rfl
  have h3 : heapPush [(⟨0 + 0, 1⟩ : EventWrapper ℕ), ⟨0 + 0, 2⟩] ⟨0 + 0, 3⟩ =
      [⟨0 + 0, 1⟩, ⟨0 + 0, 2⟩, ⟨0 + 0, 3⟩] := by
    show siftUpGo [(⟨0 + 0, 1⟩ : EventWrapper ℕ), ⟨0 + 0, 2⟩, ⟨0 + 0, 3⟩]
      ⟨0 + 0, 3⟩ 2 = _
    have hp : parentIdx 2 = 0 := rfl
    have hg : [(⟨0 + 0, 1⟩ : EventWrapper ℕ), ⟨0 + 0, 2⟩, ⟨0 + 0, 3⟩].getD 0
        ⟨0 + 0, 3⟩ = ⟨0 + 0, 1⟩ := rfl
    rw [siftUpGo, dif_neg (by decide : (2 : ℕ) ≠ 0), hp, hg, if_pos (hww 3 1)]
    rfl
  have h4 : heapPush [(⟨0 + 0, 1⟩ : EventWrapper ℕ), ⟨0 + 0, 2⟩, ⟨0 + 0, 3⟩]
      ⟨0 + 0, 4⟩ = [⟨0 + 0, 1⟩, ⟨0 + 0, 2⟩, ⟨0 + 0, 3⟩, ⟨0 + 0, 4⟩] := by
    show siftUpGo
      [(⟨0 + 0, 1⟩ : EventWrapper ℕ), ⟨0 + 0, 2⟩, ⟨0 + 0, 3⟩, ⟨0 + 0, 4⟩]
      ⟨0 + 0, 4⟩ 3 = _
    have hp : parentIdx 3 = 1 := rfl
    have hg : [(⟨0 + 0, 1⟩ : EventWrapper ℕ), ⟨0 + 0, 2⟩, ⟨0 + 0, 3⟩,
        ⟨0 + 0, 4⟩].getD 1 ⟨0 + 0, 4⟩ = ⟨0 + 0, 2⟩ := rfl
    rw [siftUpGo, dif_neg (by decide : (3 : ℕ) ≠ 0), hp, hg, if_pos (hww 4 2)]
    rfl
  have hev : (((((Engine.empty ℕ).schedule 0 1).schedule 0 2).schedule
      0 3).schedule 0 4).events =
      [⟨0 + 0, 1⟩, ⟨0 + 0, 2⟩, ⟨0 + 0, 3⟩, ⟨0 + 0, 4⟩] := by
    show heapPush (heapPush (heapPush (heapPush [] ⟨0 + 0, 1⟩) ⟨0 + 0, 2⟩)
      ⟨0 + 0, 3⟩) ⟨0 + 0, 4⟩ = _
    rw [heapPush_nil, heapPush_pair _ _ (hww 2 1), h3, h4]
  have hsd3 : siftDownToBottom
      [(⟨0 + 0, 4⟩ : EventWrapper ℕ), ⟨0 + 0, 2⟩, ⟨0 + 0, 3⟩] ⟨0 + 0, 4⟩ =
      [⟨0 + 0, 3⟩, ⟨0 + 0, 2⟩, ⟨0 + 0, 4⟩] := by
    have hsd : sdChild [(⟨0 + 0, 4⟩ : EventWrapper ℕ), ⟨0 + 0, 2⟩, ⟨0 + 0, 3⟩]
        ⟨0 + 0, 4⟩ 0 = 2 := by
      unfold sdChild
      have hg1 : [(⟨0 + 0, 4⟩ : EventWrapper ℕ), ⟨0 + 0, 2⟩, ⟨0 + 0, 3⟩].getD
          (2 * 0 + 1) ⟨0 + 0, 4⟩ = ⟨0 + 0, 2⟩ := rfl
      have hg2 : [(⟨0 + 0, 4⟩ : EventWrapper ℕ), ⟨0 + 0, 2⟩, ⟨0 + 0, 3⟩].getD
          (2 * 0 + 2) ⟨0 + 0, 4⟩ = ⟨0 + 0, 3⟩ := rfl
      rw [hg1, hg2, if_pos (hww 2 3)]
    have hloop : siftDownLoop
        [(⟨0 + 0, 4⟩ : EventWrapper ℕ), ⟨0 + 0, 2⟩, ⟨0 + 0, 3⟩] ⟨0 + 0, 4⟩ 0 =
        ([⟨0 + 0, 3⟩, ⟨0 + 0, 2⟩, ⟨0 + 0, 3⟩], 2) := by
      rw [siftDownLoop, dif_pos (by decide :
        2 * 0 + 2 < ([(⟨0 + 0, 4⟩ : EventWrapper ℕ), ⟨0 + 0, 2⟩,
          ⟨0 + 0, 3⟩]).length), hsd]
      show siftDownLoop [(⟨0 + 0, 3⟩ : EventWrapper ℕ), ⟨0 + 0, 2⟩, ⟨0 + 0, 3⟩]
        ⟨0 + 0, 4⟩ 2 =
        ([(⟨0 + 0, 3⟩ : EventWrapper ℕ), ⟨0 + 0, 2⟩, ⟨0 + 0, 3⟩], 2)
      rw [siftDownLoop, dif_neg (by decide), if_neg (by decide)]
    unfold siftDownToBottom
    rw [hloop]
    show siftUpGo [(⟨0 + 0, 3⟩ : EventWrapper ℕ), ⟨0 + 0, 2⟩, ⟨0 + 0, 3⟩]
      ⟨0 + 0, 4⟩ 2 = [⟨0 + 0, 3⟩, ⟨0 + 0, 2⟩, ⟨0 + 0, 4⟩]
    have hp : parentIdx 2 = 0 := rfl
    have hg : [(⟨0 + 0, 3⟩ : EventWrapper ℕ), ⟨0 + 0, 2⟩, ⟨0 + 0, 3⟩].getD 0
        ⟨0 + 0, 4⟩ = ⟨0 + 0, 3⟩ := rfl
    rw [siftUpGo, dif_neg (by decide : (2 : ℕ) ≠ 0), hp, hg, if_pos (hww 4 3)]
    rfl
  have hpop1 : (((((Engine.empty ℕ).schedule 0 1).schedule 0 2).schedule
      0 3).schedule 0 4).pop =
      (some 1, { now := 0 + 0, events := [⟨0 + 0, 3⟩, ⟨0 + 0, 2⟩, ⟨0 + 0, 4⟩] }) := by
    unfold Engine.pop
    rw [hev]
    have hhp : heapPop [(⟨0 + 0, 1⟩ : EventWrapper ℕ), ⟨0 + 0, 2⟩, ⟨0 + 0, 3⟩,
        ⟨0 + 0, 4⟩] = (some ⟨0 + 0, 1⟩,
          siftDownToBottom [⟨0 + 0, 4⟩, ⟨0 + 0, 2⟩, ⟨0 + 0, 3⟩] ⟨0 + 0, 4⟩) := rfl
    rw [hhp]
    rw [hsd3]
  refine ⟨?_, by decide⟩
  rw [hpop1]
  rfl

/-- C3 amended: the order the engine imposes on equal-time events is
the deterministic order produced by the binary-heap algorithms on the
insertion sequence, which is not FIFO in general; for exactly two
events scheduled at the same absolute time into an empty engine it is
FIFO: the event scheduled first is popped first. -/
theorem engine_two_equal_time_fifo {E : Type} (t : ℚ) (e1 e2 : E) :
    (((Engine.empty E).schedule t e1).schedule t e2).pop.1 = some e1 ∧
    (((Engine.empty E).schedule t e1).schedule t e2).pop.2.pop.1 = some e2 := by
  have hev : (((Engine.empty E).schedule t e1).schedule t e2).events =
      [⟨0 + t, e1⟩, ⟨0 + t, e2⟩] := by
    show heapPush (heapPush [] ⟨0 + t, e1⟩) ⟨0 + t, e2⟩ = _
    rw [heapPush_nil, heapPush_pair ⟨0 + t, e1⟩ ⟨0 + t, e2⟩ (by rw [wLe_iff])]
  have hnow : (((Engine.empty E).schedule t e1).schedule t e2).now = 0 := rfl
  have hpop1 : (((Engine.empty E).schedule t e1).schedule t e2).pop =
      (some e1, { now := 0 + t, events := [⟨0 + t, e2⟩] }) := by
    unfold Engine.pop
    rw [hev, heapPop_pair, siftDownToBottom_single]
  refine ⟨by rw [hpop1], ?_⟩
  rw [hpop1]
  rfl

/-! ### Tasks and subtasks (gd-world/src/task.rs) -/

/-- SubTask from gd-world: an id (from the global `Id` allocator) plus
nominal usage and budget (f64 modelled as ℚ). -/
structure SubTask where
  id : ℕ
  nominal_usage : ℚ
  budget : ℚ
deriving DecidableEq

/-- subtask::Status. -/
inductive Status where
  | Pending
  | Cancelled
  | Done
deriving DecidableEq

/-- Task from gd-world: `size` counts the subtasks pushed through
`push_pending`; `pending` and `done` are the two `VecDeque`s. -/
structure Task where
  id : ℕ
  size : ℕ
  pending : List SubTask
  done : List SubTask
deriving DecidableEq

/-- Task::new / Task::default (with a fresh id, here 0). -/
def Task.new : Task := ⟨0, 0, [], []⟩

/-- Task::push_pending — increments `size` and appends to `pending`. -/
def Task.push_pending (t : Task) (s : SubTask) : Task :=
  { t with size := t.size + 1, pending := t.pending ++ [s] }

/-- Task::pop_pending — pops from the front of `pending`. -/
def Task.pop_pending (t : Task) : Option SubTask × Task :=
  match t.pending with
  | [] => (none, t)
  | s :: rest => (some s, { t with pending := rest })

/-- Task::push_done — appends to `done` without touching `size`. -/
def Task.push_done (t : Task) (s : SubTask) : Task :=
  { t with done := t.done ++ [s] }

/-- Task::is_pending. -/
def Task.is_pending (t : Task) : Bool := !t.pending.isEmpty

/-- Task::is_done. -/
def Task.is_done (t : Task) : Bool := t.done.length == t.size

/-- Task states reachable under the requestor's protocol: a task is
built and re-filled through `push_pending` (including the re-push of a
cancelled subtask in `Requestor::verify_subtask`), emptied through
`pop_pending`, and only subtasks that were previously popped are
answered with `push_done`; `k` counts pops not yet answered by a
`push_done`. -/
inductive TaskReach : Task → ℕ → Prop
  | new : TaskReach Task.new 0
  | push {t : Task} {k : ℕ} {s : SubTask} :
      TaskReach t k → TaskReach (t.push_pending s) k
  | pop {t : Task} {k : ℕ} {s : SubTask} {t2 : Task} :
      TaskReach t k → t.pop_pending = (some s, t2) → TaskReach t2 (k + 1)
  | done {t : Task} {k : ℕ} {s : SubTask} :
      TaskReach t (k + 1) → TaskReach (t.push_done s) k

/-- C8 (amended): for every task driven through the requestor's
protocol, `pending.len + done.len + k = size` where `k` counts the
pops not yet answered by `push_done`; hence
`pending.len + done.len ≤ size`, with equality exactly when `k = 0`.
Because the re-push of a cancelled subtask goes through `push_pending`
(incrementing `size`) without consuming the `push_done` credit of the
pop that cancelled it, each cancellation permanently increases the
slack.  `is_pending ⇔ pending.len > 0` and `is_done ⇔ done.len = size`
hold unconditionally. -/
theorem task_invariants (t : Task) (k : ℕ) (h : TaskReach t k) :
    t.pending.length + t.done.length + k = t.size ∧
    t.pending.length + t.done.length ≤ t.size ∧
    (t.is_pending = true ↔ 0 < t.pending.length) ∧
    (t.is_done = true ↔ t.done.length = t.size) := by
  have hmain : t.pending.length + t.done.length + k = t.size := by
    induction h with
    | new => rfl
    | push h ih =>
      simp only [Task.push_pending, List.length_append, List.length_singleton]
      omega
    | pop h hp ih =>
      rename_i t0 k0 s0 t2
      rcases hpend : t0.pending with _ | ⟨s1, rest⟩
      · rw [Task.pop_pending, hpend] at hp
        exact absurd (congrArg Prod.fst hp) (by simp)
      · rw [Task.pop_pending, hpend] at hp
        have ht2 : ({ t0 with pending := rest } : Task) = t2 :=
          congrArg Prod.snd hp
        rw [← ht2]
        rw [hpend] at ih
        simp only [List.length_cons] at ih
        simp only
        omega
    | done h ih =>
      simp only [Task.push_done, List.length_append, List.length_singleton]
      omega
  refine ⟨hmain, by omega, ?_, ?_⟩
  · simp [Task.is_pending, List.isEmpty_iff, List.length_pos]
  · simp [Task.is_done]

/-- C8 witness: the concrete protocol run build, pop, answer-done. -/
theorem task_invariants_witness :
    ((Task.new.push_pending ⟨1, 1, 1⟩).pop_pending.2.push_done
        ⟨1, 1, 1⟩).pending.length +
      ((Task.new.push_pending ⟨1, 1, 1⟩).pop_pending.2.push_done
        ⟨1, 1, 1⟩).done.length + 0 =
      ((Task.new.push_pending ⟨1, 1, 1⟩).pop_pending.2.push_done
        ⟨1, 1, 1⟩).size ∧
    ((Task.new.push_pending ⟨1, 1, 1⟩).pop_pending.2.push_done
        ⟨1, 1, 1⟩).pending.length +
      ((Task.new.push_pending ⟨1, 1, 1⟩).pop_pending.2.push_done
        ⟨1, 1, 1⟩).done.length ≤
      ((Task.new.push_pending ⟨1, 1, 1⟩).pop_pending.2.push_done
        ⟨1, 1, 1⟩).size ∧
    (((Task.new.push_pending ⟨1, 1, 1⟩).pop_pending.2.push_done
        ⟨1, 1, 1⟩).is_pending = true ↔
      0 < ((Task.new.push_pending ⟨1, 1, 1⟩).pop_pending.2.push_done
        ⟨1, 1, 1⟩).pending.length) ∧
    (((Task.new.push_pending ⟨1, 1, 1⟩).pop_pending.2.push_done
        ⟨1, 1, 1⟩).is_done = true ↔
      ((Task.new.push_pending ⟨1, 1, 1⟩).pop_pending.2.push_done
        ⟨1, 1, 1⟩).done.length =
      ((Task.new.push_pending ⟨1, 1, 1⟩).pop_pending.2.push_done
        ⟨1, 1, 1⟩).size) :=
  task_invariants _ 0
    (TaskReach.done (TaskReach.pop (TaskReach.push TaskReach.new) rfl))

/-- C8 counterexample: build one subtask, pop it, re-push it as
cancelled, pop it again and resolve it as done — every emitted subtask
has been resolved, yet `pending.len + done.len = 1 < 2 = size`, because
the re-push incremented `size`; the claimed equality fails. -/
theorem task_size_equality_fails :
    (((Task.new.push_pending ⟨1, 1, 1⟩).pop_pending.2.push_pending
        ⟨1, 1, 1⟩).pop_pending.2.push_done ⟨1, 1, 1⟩).pending.length +
      (((Task.new.push_pending ⟨1, 1, 1⟩).pop_pending.2.push_pending
        ⟨1, 1, 1⟩).pop_pending.2.push_done ⟨1, 1, 1⟩).done.length = 1 ∧
    (((Task.new.push_pending ⟨1, 1, 1⟩).pop_pending.2.push_pending
        ⟨1, 1, 1⟩).pop_pending.2.push_done ⟨1, 1, 1⟩).size = 2 ∧
    (1 : ℕ) ≠ 2 := by
  refine ⟨rfl, rfl, by decide⟩

/-! ### The task queue (gd-world/src/requestor/task_queue.rs) -/

/-- TaskQueue from gd-world. -/
structure TaskQueue where
  buffer : List Task
  repeating : Bool
deriving DecidableEq

/-- TaskQueue::pop: the front task is removed and returned; when
`repeating`, `task.clone()` — a derived `Clone`, i.e. a
field-for-field copy keeping the same task id and subtask ids — is
pushed to the back. -/
def TaskQueue.pop (q : TaskQueue) : Option Task × TaskQueue :=
  match q.buffer with
  | [] => (none, q)
  | t :: rest =>
    (some t, { q with buffer := if q.repeating then rest ++ [t] else rest })

/-- C9 (amended): `pop` on an empty queue yields no Task; with
`repeating = false` it removes and returns the front task; with
`repeating = true` it returns the front task and moves a copy of it to
the back — but the copy is the derived-`Clone` field-for-field copy,
so it has the *same* task id and the same subtask ids as the popped
task (no fresh ids are allocated). -/
theorem task_queue_pop_spec (q : TaskQueue) :
    (q.buffer = [] → q.pop = (none, q)) ∧
    (∀ t rest, q.buffer = t :: rest → q.repeating = false →
      q.pop = (some t, { q with buffer := rest })) ∧
    (∀ t rest, q.buffer = t :: rest → q.repeating = true →
      q.pop = (some t, { q with buffer := rest ++ [t] }) ∧
      (rest ++ [t]).getLast? = some t) := by
  refine ⟨?_, ?_, ?_⟩
  · intro h
    unfold TaskQueue.pop
    rw [h]
  · intro t rest hb hr
    unfold TaskQueue.pop
    rw [hb]
    simp [hr]
  · intro t rest hb hr
    constructor
    · unfold TaskQueue.pop
      rw [hb]
      simp [hr]
    · exact List.getLast?_concat rest

/-- C9 witness: a singleton repeating queue. -/
theorem task_queue_pop_spec_witness :
    ((TaskQueue.mk [⟨5, 1, [⟨7, 1, 1⟩], []⟩] true).buffer = [] →
      (TaskQueue.mk [⟨5, 1, [⟨7, 1, 1⟩], []⟩] true).pop =
        (none, TaskQueue.mk [⟨5, 1, [⟨7, 1, 1⟩], []⟩] true)) ∧
    (∀ t rest, (TaskQueue.mk [⟨5, 1, [⟨7, 1, 1⟩], []⟩] true).buffer =
        t :: rest →
      (TaskQueue.mk [⟨5, 1, [⟨7, 1, 1⟩], []⟩] true).repeating = false →
      (TaskQueue.mk [⟨5, 1, [⟨7, 1, 1⟩], []⟩] true).pop =
        (some t, { TaskQueue.mk [⟨5, 1, [⟨7, 1, 1⟩], []⟩] true with
          buffer := rest })) ∧
    (∀ t rest, (TaskQueue.mk [⟨5, 1, [⟨7, 1, 1⟩], []⟩] true).buffer =
        t :: rest →
      (TaskQueue.mk [⟨5, 1, [⟨7, 1, 1⟩], []⟩] true).repeating = true →
      (TaskQueue.mk [⟨5, 1, [⟨7, 1, 1⟩], []⟩] true).pop =
        (some t, { TaskQueue.mk [⟨5, 1, [⟨7, 1, 1⟩], []⟩] true with
          buffer := rest ++ [t] }) ∧
      (rest ++ [t]).getLast? = some t) :=
  task_queue_pop_spec (TaskQueue.mk [⟨5, 1, [⟨7, 1, 1⟩], []⟩] true)

/-- C9 counterexample: popping a repeating queue holding the task with
id 5 puts the very same task (same id 5, same subtask id 7) at the
back, not a copy with fresh ids. -/
theorem task_queue_copy_keeps_ids :
    (TaskQueue.pop ⟨[⟨5, 1, [⟨7, 1, 1⟩], []⟩], true⟩).1 =
      some ⟨5, 1, [⟨7, 1, 1⟩], []⟩ ∧
    (TaskQueue.pop ⟨[⟨5, 1, [⟨7, 1, 1⟩], []⟩], true⟩).2.buffer =
      [⟨5, 1, [⟨7, 1, 1⟩], []⟩] := by
  exact ⟨rfl, rfl⟩

/-! ### Ban durations and the LGRola decay
(gd-world/src/requestor/defence.rs, defence/lgrola.rs) -/

/-- BanDuration from gd-world, instantiated at `i64` as in the code. -/
inductive BanDuration where
  | Until (v : ℤ)
  | Indefinitely
deriving DecidableEq

/-- BanDuration::is_expired. -/
def BanDuration.is_expired : BanDuration → Bool
  | BanDuration.Until v => v == 0
  | BanDuration.Indefinitely => false

/-- BanDuration::decrement (a no-op on Indefinitely). -/
def BanDuration.decrement : BanDuration → BanDuration
  | BanDuration.Until v => BanDuration.Until (v - 1)
  | BanDuration.Indefinitely => BanDuration.Indefinitely

/-- Per-entry effect on the blacklist of the opening phase of
LGRola::complete_task: the code first removes every entry whose
duration `is_expired` (counter equal to 0) and then decrements every
remaining entry. -/
def lgrolaDecayEntry : Option BanDuration → Option BanDuration
  | none => none
  | some b => if b.is_expired then none else some b.decrement

/-- The blacklist map after the decay phase of LGRola::complete_task.
The remainder of complete_task only inserts new bans, for providers
whose usage in the just-completed task is an upper outlier; on a state
whose per-task usage map is empty it is exactly complete_task's effect
on the blacklist. -/
def lgrolaDecay (bl : ℕ → Option BanDuration) : ℕ → Option BanDuration :=
  fun id => lgrolaDecayEntry (bl id)

theorem lgrolaDecay_iterate (bl : ℕ → Option BanDuration) (id : ℕ) (k : ℕ) :
    (lgrolaDecay^[k] bl) id = lgrolaDecayEntry^[k] (bl id) := by
  induction k generalizing bl with
  | zero => rfl
  | succ n ih =>
    rw [Function.iterate_succ_apply, Function.iterate_succ_apply]
    exact ih (lgrolaDecay bl)

/-- C6 (amended): each LGRola::complete_task first removes the entries
whose finite counter is already 0 and then decrements the remaining
finite counters by exactly 1 (indefinite bans are untouched);
consequently a provider banned with `BanDuration::Until n` (`n ≥ 1`)
still sits in the blacklist with counter `n - k` after `k ≤ n`
completed tasks — in particular with counter 0 after exactly `n` — and
is removed only by the `n + 1`-st completed task. -/
theorem lgrola_ban_decay (bl : ℕ → Option BanDuration) (id : ℕ) (n : ℕ)
    (hn : 0 < n) (hb : bl id = some (BanDuration.Until (n : ℤ))) :
    (∀ m : ℤ, m ≠ 0 →
      lgrolaDecayEntry (some (BanDuration.Until m)) =
        some (BanDuration.Until (m - 1))) ∧
    lgrolaDecayEntry (some (BanDuration.Until 0)) = none ∧
    lgrolaDecayEntry (some BanDuration.Indefinitely) =
      some BanDuration.Indefinitely ∧
    (∀ k ≤ n, (lgrolaDecay^[k] bl) id =
      some (BanDuration.Until ((n : ℤ) - k))) ∧
    (lgrolaDecay^[n + 1] bl) id = none := by
  have hstep : ∀ m : ℤ, m ≠ 0 →
      lgrolaDecayEntry (some (BanDuration.Until m)) =
        some (BanDuration.Until (m - 1)) := by
    intro m hm
    simp [lgrolaDecayEntry, BanDuration.is_expired, BanDuration.decrement, hm]
  have hent : ∀ k ≤ n, lgrolaDecayEntry^[k] (some (BanDuration.Until (n : ℤ))) =
      some (BanDuration.Until ((n : ℤ) - k)) := by
    intro k
    induction k with
    | zero =>
      intro _
      norm_num
    | succ j ih =>
      intro hj
      rw [Function.iterate_succ_apply', ih (by omega),
        hstep ((n : ℤ) - j) (by push_cast; omega)]
      have hc : (n : ℤ) - j - 1 = (n : ℤ) - (j + 1 : ℕ) := by push_cast; ring
      rw [hc]
  have hiter : ∀ k ≤ n, (lgrolaDecay^[k] bl) id =
      some (BanDuration.Until ((n : ℤ) - k)) := by
    intro k hk
    rw [lgrolaDecay_iterate, hb, hent k hk]
  refine ⟨hstep, by rfl, by rfl, hiter, ?_⟩
  rw [lgrolaDecay_iterate, hb, Function.iterate_succ_apply', hent n le_rfl]
  have hz : (n : ℤ) - n = 0 := by ring
  rw [hz]
  rfl

/-- C6 witness: a ban of two tasks decays through `Until 1`, `Until 0`
and is removed by the third completed task. -/
theorem lgrola_ban_decay_witness :
    ((∀ m : ℤ, m ≠ 0 →
      lgrolaDecayEntry (some (BanDuration.Until m)) =
        some (BanDuration.Until (m - 1))) ∧
    lgrolaDecayEntry (some (BanDuration.Until 0)) = none ∧
    lgrolaDecayEntry (some BanDuration.Indefinitely) =
      some BanDuration.Indefinitely ∧
    (∀ k ≤ 2, (lgrolaDecay^[k] (fun _ => some (BanDuration.Until 2))) 0 =
      some (BanDuration.Until ((2 : ℤ) - k))) ∧
    (lgrolaDecay^[2 + 1] (fun _ => some (BanDuration.Until 2))) 0 = none) :=
  lgrola_ban_decay (fun _ => some (BanDuration.Until 2)) 0 2 (by decide)
    (by norm_num)

/-- C6 counterexample: a provider banned with `Until 1` is still in
the blacklist, with counter 0, after one completed task — the claim
that the entry is removed as soon as its counter reaches 0 (absent
after exactly `n` completed tasks) fails. -/
theorem lgrola_ban_not_removed_at_zero :
    lgrolaDecay (fun _ => some (BanDuration.Until 1)) 0 =
      some (BanDuration.Until 0) ∧
    some (BanDuration.Until 0) ≠ (none : Option BanDuration) := by
  exact ⟨rfl, by decide⟩

/-! ### The Redundancy defence
(gd-world/src/requestor/defence/redundancy.rs) -/

/-- State of the Redundancy defence: the DefenceMechanismCommon part
(ratings and blacklisted_set, HashMaps on provider ids modelled as a
total rating function — `get` always `expect`s the key — and an
optional ban per id) plus the verification map (per subtask id, the
list of results received so far, or `none` when no slot is open). -/
structure Redundancy where
  ratings : ℕ → ℚ
  blacklist : ℕ → Option BanDuration
  vmap : ℕ → Option (List (Option (ℕ × ℚ)))

/-- DefenceMechanismCommon::update_provider_rating with
MAX_RATING = 2.0: stores the new rating and inserts an indefinite ban
when the new rating is ≥ 2. -/
def Redundancy.update_provider_rating (st : Redundancy) (id : ℕ)
    (newR : ℚ) : Redundancy :=
  if newR ≥ 2 then
    { st with
      ratings := Function.update st.ratings id newR
      blacklist :=
        Function.update st.blacklist id (some BanDuration.Indefinitely) }
  else { st with ratings := Function.update st.ratings id newR }

/-- Redundancy::update_rating: the provider `p1` (the one with the
larger effective work `d1`) has its rating multiplied by `d1 / d2`;
the other provider's rating is not touched. -/
def Redundancy.update_rating (st : Redundancy) (p1 p2 : ℕ × ℚ) : Redundancy :=
  st.update_provider_rating p1.1 (st.ratings p1.1 * p1.2 / p2.2)

/-- VerificationMap::insert_verification with REDUNDANCY_FACTOR = 2:
the result is pushed onto the subtask's slot; when the slot reaches
two entries it is removed and the non-null results are returned.
`none` models the `panic!` on a missing key. -/
def insertVerification (m : ℕ → Option (List (Option (ℕ × ℚ)))) (key : ℕ)
    (res : Option (ℕ × ℚ)) :
    Option (Option (List (ℕ × ℚ)) × (ℕ → Option (List (Option (ℕ × ℚ))))) :=
  match m key with
  | none => none
  | some vs =>
    if (vs ++ [res]).length = 2 then
      some (some ((vs ++ [res]).filterMap id), Function.update m key none)
    else some (none, Function.update m key (some (vs ++ [res])))

/-- Redundancy::verify_subtask: records `reported_usage / rating` as
the provider's effective work; on the second result for the subtask
emits Cancelled when both reported usages were null and Done
otherwise, updating the rating of the provider with the larger
effective work when both reported (under the `len = 2` guard the
accesses `vers[0]`/`vers[1]` are in bounds; `getD` with a dummy
default stands for them).  `none` models the panic on a subtask
without an open verification slot. -/
def Redundancy.verify_subtask (st : Redundancy) (s : SubTask)
    (provider_id : ℕ) (reported_usage : Option ℚ) :
    Option (Status × Redundancy) :=
  match insertVerification st.vmap s.id
      (reported_usage.map fun usage =>
        (provider_id, usage / st.ratings provider_id)) with
  | none => none
  | some (none, m2) => some (Status.Pending, { st with vmap := m2 })
  | some (some vers, m2) =>
    if 0 < vers.length then
      if vers.length = 2 then
        some (Status.Done,
          if (vers.getD 0 (0, 0)).2 > (vers.getD 1 (0, 0)).2 then
            Redundancy.update_rating { st with vmap := m2 }
              (vers.getD 0 (0, 0)) (vers.getD 1 (0, 0))
          else
            Redundancy.update_rating { st with vmap := m2 }
              (vers.getD 1 (0, 0)) (vers.getD 0 (0, 0)))
      else some (Status.Done, { st with vmap := m2 })
    else some (Status.Cancelled, { st with vmap := m2 })

/-- C7: under the Redundancy defence, for a subtask whose verification
slot is open (dispatch called `insert_key`), the first arriving result
yields Pending; the second yields Cancelled exactly when both reported
usages were absent (budget exceeded twice) and Done when at least one
was present. -/
theorem redundancy_verify_statuses (st : Redundancy) (s : SubTask)
    (p : ℕ) (u : Option ℚ) :
    (st.vmap s.id = some [] →
      ∃ st2, st.verify_subtask s p u = some (Status.Pending, st2)) ∧
    (∀ r0, st.vmap s.id = some [r0] →
      ((r0 = none ∧ u = none) →
        ∃ st2, st.verify_subtask s p u = some (Status.Cancelled, st2)) ∧
      ((r0 ≠ none ∨ u ≠ none) →
        ∃ st2, st.verify_subtask s p u = some (Status.Done, st2))) := by
  constructor
  · intro h
    refine ⟨{ st with vmap := (Function.update st.vmap s.id
      (some [u.map (fun usage => (p, usage / st.ratings p))])) }, ?_⟩
    unfold Redundancy.verify_subtask insertVerification
    rw [h]
    norm_num
  · intro r0 h
    constructor
    · rintro ⟨rfl, rfl⟩
      refine ⟨{ st with vmap := Function.update st.vmap s.id none }, ?_⟩
      unfold Redundancy.verify_subtask insertVerification
      rw [h]
      norm_num
    · intro hor
      unfold Redundancy.verify_subtask insertVerification
      rw [h]
      rcases hr0 : r0 with _ | a <;> rcases hu : u with _ | b
      · subst hr0 hu
        simp at hor
      · norm_num [List.filterMap_cons, id_eq]
      · norm_num [List.filterMap_cons, id_eq]
      · norm_num [List.filterMap_cons, id_eq]

/-- C7 witness: a concrete state with an open slot holding one null
result, receiving a non-null second result. -/
theorem redundancy_verify_statuses_witness :
    ((Redundancy.mk (fun _ => 1) (fun _ => none)
        (fun k => if k = 0 then some [] else none)).vmap
        (SubTask.mk 0 1 1).id = some [] →
      ∃ st2, (Redundancy.mk (fun _ => 1) (fun _ => none)
        (fun k => if k = 0 then some [] else none)).verify_subtask
          (SubTask.mk 0 1 1) 3 (some 5) = some (Status.Pending, st2)) ∧
    (∀ r0, (Redundancy.mk (fun _ => 1) (fun _ => none)
        (fun k => if k = 0 then some [] else none)).vmap
        (SubTask.mk 0 1 1).id = some [r0] →
      ((r0 = none ∧ (some 5 : Option ℚ) = none) →
        ∃ st2, (Redundancy.mk (fun _ => 1) (fun _ => none)
          (fun k => if k = 0 then some [] else none)).verify_subtask
            (SubTask.mk 0 1 1) 3 (some 5) = some (Status.Cancelled, st2)) ∧
      ((r0 ≠ none ∨ (some 5 : Option ℚ) ≠ none) →
        ∃ st2, (Redundancy.mk (fun _ => 1) (fun _ => none)
          (fun k => if k = 0 then some [] else none)).verify_subtask
            (SubTask.mk 0 1 1) 3 (some 5) = some (Status.Done, st2))) :=
  redundancy_verify_statuses
    (Redundancy.mk (fun _ => 1) (fun _ => none)
      (fun k => if k = 0 then some [] else none)) (SubTask.mk 0 1 1) 3 (some 5)

/-- C1 (amended): when both providers of a redundantly dispatched
subtask report, with effective works `d1 = u1 / rating p1` strictly
greater than `d2 = u2 / rating p2`, then — in either arrival order of
the two results — the rating of `p1` (the slower, higher-effective-work
provider) is multiplied by `d1 / d2` — no square root is taken —, the
rating of `p2` is left unchanged, and `p1` is blacklisted indefinitely
exactly if its updated rating is ≥ 2.0. The first conjunct covers
`p1`'s result arriving first (`vers[0].1 > vers[1].1`, the `if`
branch), the second covers `p2`'s result arriving first (the `else`
branch). -/
theorem redundancy_rating_update (st : Redundancy) (s : SubTask)
    (p1 p2 : ℕ) (u1 u2 : ℚ) (hne : p1 ≠ p2)
    (hv : st.vmap s.id = some [])
    (hd : u2 / st.ratings p2 < u1 / st.ratings p1) :
    (∃ st1 st2,
      st.verify_subtask s p1 (some u1) = some (Status.Pending, st1) ∧
      st1.ratings = st.ratings ∧ st1.blacklist = st.blacklist ∧
      st1.verify_subtask s p2 (some u2) = some (Status.Done, st2) ∧
      st2.ratings p1 =
        st.ratings p1 * (u1 / st.ratings p1) / (u2 / st.ratings p2) ∧
      st2.ratings p2 = st.ratings p2 ∧
      st2.blacklist p1 =
        (if st.ratings p1 * (u1 / st.ratings p1) / (u2 / st.ratings p2) ≥ 2
          then some BanDuration.Indefinitely else st.blacklist p1) ∧
      st2.blacklist p2 = st.blacklist p2) ∧
    (∃ st1 st2,
      st.verify_subtask s p2 (some u2) = some (Status.Pending, st1) ∧
      st1.ratings = st.ratings ∧ st1.blacklist = st.blacklist ∧
      st1.verify_subtask s p1 (some u1) = some (Status.Done, st2) ∧
      st2.ratings p1 =
        st.ratings p1 * (u1 / st.ratings p1) / (u2 / st.ratings p2) ∧
      st2.ratings p2 = st.ratings p2 ∧
      st2.blacklist p1 =
        (if st.ratings p1 * (u1 / st.ratings p1) / (u2 / st.ratings p2) ≥ 2
          then some BanDuration.Indefinitely else st.blacklist p1) ∧
      st2.blacklist p2 = st.blacklist p2) := by
  have hd' : ¬ (u1 / st.ratings p1 < u2 / st.ratings p2) := not_lt.mpr hd.le
  constructor
  · have h1 : st.verify_subtask s p1 (some u1) = some (Status.Pending,
        { st with vmap := (Function.update st.vmap s.id
          (some [some (p1, u1 / st.ratings p1)])) }) := by
      unfold Redundancy.verify_subtask insertVerification
      rw [hv]
      norm_num
    have h2 : ({ st with vmap := (Function.update st.vmap s.id
          (some [some (p1, u1 / st.ratings p1)])) } : Redundancy).verify_subtask
        s p2 (some u2) = some (Status.Done,
          Redundancy.update_rating
            { st with vmap := (Function.update (Function.update st.vmap s.id
                (some [some (p1, u1 / st.ratings p1)])) s.id none) }
            (p1, u1 / st.ratings p1) (p2, u2 / st.ratings p2)) := by
      unfold Redundancy.verify_subtask insertVerification
      dsimp only
      rw [show (Function.update st.vmap s.id
          (some [some (p1, u1 / st.ratings p1)])) s.id =
        some [some (p1, u1 / st.ratings p1)] from Function.update_same _ _ _]
      norm_num [List.filterMap_cons, id_eq, hd, gt_iff_lt]
    refine ⟨_, _, h1, rfl, rfl, h2, ?_, ?_, ?_, ?_⟩
    · unfold Redundancy.update_rating Redundancy.update_provider_rating
      dsimp only
      split
      · exact Function.update_same _ _ _
      · exact Function.update_same _ _ _
    · unfold Redundancy.update_rating Redundancy.update_provider_rating
      dsimp only
      split
      · exact Function.update_noteq (fun hc => hne hc.symm) _ _
      · exact Function.update_noteq (fun hc => hne hc.symm) _ _
    · unfold Redundancy.update_rating Redundancy.update_provider_rating
      dsimp only
      split
      · exact Function.update_same _ _ _
      · rfl
    · unfold Redundancy.update_rating Redundancy.update_provider_rating
      dsimp only
      split
      · exact Function.update_noteq (fun hc => hne hc.symm) _ _
      · rfl
  · have h1 : st.verify_subtask s p2 (some u2) = some (Status.Pending,
        { st with vmap := (Function.update st.vmap s.id
          (some [some (p2, u2 / st.ratings p2)])) }) := by
      unfold Redundancy.verify_subtask insertVerification
      rw [hv]
      norm_num
    have h2 : ({ st with vmap := (Function.update st.vmap s.id
          (some [some (p2, u2 / st.ratings p2)])) } : Redundancy).verify_subtask
        s p1 (some u1) = some (Status.Done,
          Redundancy.update_rating
            { st with vmap := (Function.update (Function.update st.vmap s.id
                (some [some (p2, u2 / st.ratings p2)])) s.id none) }
            (p1, u1 / st.ratings p1) (p2, u2 / st.ratings p2)) := by
      unfold Redundancy.verify_subtask insertVerification
      dsimp only
      rw [show (Function.update st.vmap s.id
          (some [some (p2, u2 / st.ratings p2)])) s.id =
        some [some (p2, u2 / st.ratings p2)] from Function.update_same _ _ _]
      norm_num [List.filterMap_cons, id_eq, hd', gt_iff_lt]
    refine ⟨_, _, h1, rfl, rfl, h2, ?_, ?_, ?_, ?_⟩
    · unfold Redundancy.update_rating Redundancy.update_provider_rating
      dsimp only
      split
      · exact Function.update_same _ _ _
      · exact Function.update_same _ _ _
    · unfold Redundancy.update_rating Redundancy.update_provider_rating
      dsimp only
      split
      · exact Function.update_noteq (fun hc => hne hc.symm) _ _
      · exact Function.update_noteq (fun hc => hne hc.symm) _ _
    · unfold Redundancy.update_rating Redundancy.update_provider_rating
      dsimp only
      split
      · exact Function.update_same _ _ _
      · rfl
    · unfold Redundancy.update_rating Redundancy.update_provider_rating
      dsimp only
      split
      · exact Function.update_noteq (fun hc => hne hc.symm) _ _
      · rfl

/-- C1 witness: both ratings 1; provider 1 reports usage 4 (effective
work 4), provider 2 reports usage 1 (effective work 1); both arrival
orders of the two results are exercised. -/
theorem redundancy_rating_update_witness :
    (∃ st1 st2,
      (Redundancy.mk (fun _ => 1) (fun _ => none)
        (fun k => if k = 0 then some [] else none)).verify_subtask
        ⟨0, 1, 1⟩ 1 (some 4) = some (Status.Pending, st1) ∧
      st1.ratings = (fun _ => (1 : ℚ)) ∧
      st1.blacklist = (fun _ => (none : Option BanDuration)) ∧
      st1.verify_subtask ⟨0, 1, 1⟩ 2 (some 1) = some (Status.Done, st2) ∧
      st2.ratings 1 = 1 * (4 / 1) / (1 / 1) ∧
      st2.ratings 2 = 1 ∧
      st2.blacklist 1 = (if (1 : ℚ) * (4 / 1) / (1 / 1) ≥ 2
        then some BanDuration.Indefinitely else none) ∧
      st2.blacklist 2 = none) ∧
    (∃ st1 st2,
      (Redundancy.mk (fun _ => 1) (fun _ => none)
        (fun k => if k = 0 then some [] else none)).verify_subtask
        ⟨0, 1, 1⟩ 2 (some 1) = some (Status.Pending, st1) ∧
      st1.ratings = (fun _ => (1 : ℚ)) ∧
      st1.blacklist = (fun _ => (none : Option BanDuration)) ∧
      st1.verify_subtask ⟨0, 1, 1⟩ 1 (some 4) = some (Status.Done, st2) ∧
      st2.ratings 1 = 1 * (4 / 1) / (1 / 1) ∧
      st2.ratings 2 = 1 ∧
      st2.blacklist 1 = (if (1 : ℚ) * (4 / 1) / (1 / 1) ≥ 2
        then some BanDuration.Indefinitely else none) ∧
      st2.blacklist 2 = none) :=
  redundancy_rating_update
    (Redundancy.mk (fun _ => 1) (fun _ => none)
      (fun k => if k = 0 then some [] else none))
    ⟨0, 1, 1⟩ 1 2 4 1 (by decide) (by norm_num) (by norm_num)

/-- C1 counterexample: with both ratings 1, provider 1 reporting
usage 4 (effective work d_hi = 4) and provider 2 reporting usage 1
(effective work d_lo = 1), the code sets rating(p1) to 4 and leaves
rating(p2) at 1 — whereas the claim predicts rating(p1) = 1·√(4/1) = 2
and rating(p2) = 1/√(4/1) = 1/2; neither matches. -/
theorem redundancy_no_sqrt :
    (Option.bind
      ((Redundancy.mk (fun _ => 1) (fun _ => none)
        (fun k => if k = 0 then some [] else none)).verify_subtask
          ⟨0, 1, 1⟩ 1 (some 4))
      (fun r => (r.2.verify_subtask ⟨0, 1, 1⟩ 2 (some 1)).map
        (fun r2 => (r2.2.ratings 1, r2.2.ratings 2)))) =
      some ((4 : ℚ), (1 : ℚ)) ∧
    (4 : ℝ) ≠ 1 * Real.sqrt (4 / 1) ∧
    (1 : ℝ) ≠ 1 / Real.sqrt (4 / 1) := by
  have h4 : Real.sqrt (4 / 1) = 2 := by
    rw [show ((4 : ℝ) / 1) = 2 ^ 2 by norm_num,
      Real.sqrt_sq (by norm_num : (0 : ℝ) ≤ 2)]
  refine ⟨?_, ?_, ?_⟩
  · norm_num [Redundancy.verify_subtask, insertVerification,
      Redundancy.update_rating, Redundancy.update_provider_rating,
      List.filterMap_cons, id_eq, Function.update_apply, gt_iff_lt]
  · rw [h4]
    norm_num
  · rw [h4]
    norm_num

/-! ### The CTasks defence (gd-world/src/requestor/defence/ctasks.rs) -/

/-- statrs `geometric_mean`: the exponential of the mean of the
natural logarithms (the n-th root of the product for positive
inputs); f64 modelled as ℝ for nonempty input lists. -/
noncomputable def geomean (l : List ℝ) : ℝ :=
  Real.exp ((l.map Real.log).sum / l.length)

/-- State of the CTasks defence: the DefenceMechanismCommon part and
`task_usages`, the per-task usage map, modelled as an association list
(HashMap keys are unique). -/
structure CTasks where
  ratings : ℕ → ℝ
  blacklist : ℕ → Option BanDuration
  taskUsages : List (ℕ × List ℝ)

/-- DefenceMechanismCommon::update_provider_rating (MAX_RATING = 2.0)
at ℝ, as used by CTasks. -/
noncomputable def CTasks.update_provider_rating (st : CTasks) (id : ℕ)
    (newR : ℝ) : CTasks :=
  if newR ≥ 2 then
    { st with
      ratings := Function.update st.ratings id newR
      blacklist :=
        Function.update st.blacklist id (some BanDuration.Indefinitely) }
  else { st with ratings := Function.update st.ratings id newR }

/-- CTasks::complete_task: per provider the geometric mean `U_p` of
its recorded usages, `U` the geometric mean of the `U_p`, `R` the
geometric mean of the participating providers' ratings (computed
before any update); each participating provider's rating is updated to
`rating · √((U_p / U) / (rating / R))`, blacklisting at ≥ 2; finally
the usage map is cleared.  HashMap iteration order is arbitrary, but
the geometric means are order-independent and each update reads and
writes only its own provider's entry, so the fold over the
association list is faithful. -/
noncomputable def CTasks.complete_task (st : CTasks) : CTasks :=
  let tu : List (ℕ × ℝ) := st.taskUsages.map (fun p => (p.1, geomean p.2))
  let meanUsage : ℝ := geomean (tu.map Prod.snd)
  let meanRating : ℝ :=
    geomean (st.taskUsages.map (fun p => st.ratings p.1))
  let st2 := tu.foldl (fun acc p =>
    acc.update_provider_rating p.1
      (acc.ratings p.1 *
        Real.sqrt ((p.2 / meanUsage) / (acc.ratings p.1 / meanRating)))) st
  { st2 with taskUsages := [] }

theorem ctasks_upr_ratings_ne (st : CTasks) (i j : ℕ) (r : ℝ) (h : j ≠ i) :
    (st.update_provider_rating i r).ratings j = st.ratings j := by
  unfold CTasks.update_provider_rating
  split
  · exact Function.update_noteq h _ _
  · exact Function.update_noteq h _ _

theorem ctasks_upr_blacklist_ne (st : CTasks) (i j : ℕ) (r : ℝ) (h : j ≠ i) :
    (st.update_provider_rating i r).blacklist j = st.blacklist j := by
  unfold CTasks.update_provider_rating
  split
  · exact Function.update_noteq h _ _
  · rfl

theorem ctasks_fold_untouched (meanUsage meanRating : ℝ)
    (l : List (ℕ × ℝ)) (st : CTasks) (id : ℕ)
    (h : id ∉ l.map Prod.fst) :
    (l.foldl (fun acc p =>
      acc.update_provider_rating p.1
        (acc.ratings p.1 *
          Real.sqrt ((p.2 / meanUsage) / (acc.ratings p.1 / meanRating)))) st).ratings id =
      st.ratings id ∧
    (l.foldl (fun acc p =>
      acc.update_provider_rating p.1
        (acc.ratings p.1 *
          Real.sqrt ((p.2 / meanUsage) / (acc.ratings p.1 / meanRating)))) st).blacklist id =
      st.blacklist id := by
  induction l generalizing st with
  | nil => exact ⟨rfl, rfl⟩
  | cons hd tl ih =>
    have hne : id ≠ hd.1 := by
      intro hc
      exact h (by simp [hc])
    have htl : id ∉ tl.map Prod.fst := by
      intro hc
      exact h (by simp [hc])
    obtain ⟨ih1, ih2⟩ := ih _ htl
    refine ⟨?_, ?_⟩
    · rw [List.foldl_cons, ih1]
      exact ctasks_upr_ratings_ne _ _ _ _ hne
    · rw [List.foldl_cons, ih2]
      exact ctasks_upr_blacklist_ne _ _ _ _ hne

theorem ctasks_upr_ratings_self (st : CTasks) (i : ℕ) (r : ℝ) :
    (st.update_provider_rating i r).ratings i = r := by
  unfold CTasks.update_provider_rating
  split
  · exact Function.update_same _ _ _
  · exact Function.update_same _ _ _

theorem ctasks_upr_blacklist_self (st : CTasks) (i : ℕ) (r : ℝ) :
    (st.update_provider_rating i r).blacklist i =
      (if r ≥ 2 then some BanDuration.Indefinitely else st.blacklist i) := by
  unfold CTasks.update_provider_rating
  split
  · exact Function.update_same _ _ _
  · rfl

theorem ctasks_fold_spec (meanUsage meanRating : ℝ)
    (l1 l2 : List (ℕ × ℝ)) (st : CTasks) (id : ℕ) (g : ℝ)
    (hid1 : id ∉ l1.map Prod.fst) (hid2 : id ∉ l2.map Prod.fst) :
    ((l1 ++ (id, g) :: l2).foldl (fun acc p =>
      acc.update_provider_rating p.1
        (acc.ratings p.1 *
          Real.sqrt ((p.2 / meanUsage) /
            (acc.ratings p.1 / meanRating)))) st).ratings id =
      st.ratings id * Real.sqrt
        ((g / meanUsage) / (st.ratings id / meanRating)) ∧
    ((l1 ++ (id, g) :: l2).foldl (fun acc p =>
      acc.update_provider_rating p.1
        (acc.ratings p.1 *
          Real.sqrt ((p.2 / meanUsage) /
            (acc.ratings p.1 / meanRating)))) st).blacklist id =
      (if st.ratings id * Real.sqrt
          ((g / meanUsage) / (st.ratings id / meanRating)) ≥ 2
        then some BanDuration.Indefinitely else st.blacklist id) := by
  obtain ⟨hA1, hA2⟩ := ctasks_fold_untouched meanUsage meanRating l1 st id hid1
  rw [List.foldl_append, List.foldl_cons]
  obtain ⟨hC1, hC2⟩ := ctasks_fold_untouched meanUsage meanRating l2
    ((l1.foldl (fun acc p =>
      acc.update_provider_rating p.1
        (acc.ratings p.1 *
          Real.sqrt ((p.2 / meanUsage) /
            (acc.ratings p.1 / meanRating)))) st).update_provider_rating id
      ((l1.foldl (fun acc p =>
        acc.update_provider_rating p.1
          (acc.ratings p.1 *
            Real.sqrt ((p.2 / meanUsage) /
              (acc.ratings p.1 / meanRating)))) st).ratings id *
        Real.sqrt ((g / meanUsage) /
          ((l1.foldl (fun acc p =>
            acc.update_provider_rating p.1
              (acc.ratings p.1 *
                Real.sqrt ((p.2 / meanUsage) /
                  (acc.ratings p.1 / meanRating)))) st).ratings id /
            meanRating)))) id hid2
  constructor
  · rw [hC1, ctasks_upr_ratings_self, hA1]
  · rw [hC2, ctasks_upr_blacklist_self, hA1, hA2]

/-- C5 (amended): after CTasks::complete_task, each provider p that
contributed usages this task has its rating multiplied by
√((U_p / U) / (rating p / R)) with U_p, U, R the geometric means of
the statrs implementation; p's blacklist entry is set to an indefinite
ban exactly when the post-update rating is ≥ MAX_RATING = 2.0 (prior
entries are retained, never removed); providers that contributed no
usage are untouched, and the per-task usage map is cleared. -/
theorem ctasks_complete_task_spec (st : CTasks)
    (hnd : (st.taskUsages.map Prod.fst).Nodup) :
    (∀ id us, (id, us) ∈ st.taskUsages →
      (st.complete_task).ratings id =
        st.ratings id * Real.sqrt
          ((geomean us /
              geomean ((st.taskUsages.map (fun p => (p.1, geomean p.2))).map
                Prod.snd)) /
            (st.ratings id /
              geomean (st.taskUsages.map (fun p => st.ratings p.1)))) ∧
      (st.complete_task).blacklist id =
        (if st.ratings id * Real.sqrt
            ((geomean us /
                geomean ((st.taskUsages.map (fun p => (p.1, geomean p.2))).map
                  Prod.snd)) /
              (st.ratings id /
                geomean (st.taskUsages.map (fun p => st.ratings p.1)))) ≥ 2
          then some BanDuration.Indefinitely else st.blacklist id)) ∧
    (∀ id, id ∉ st.taskUsages.map Prod.fst →
      (st.complete_task).ratings id = st.ratings id ∧
      (st.complete_task).blacklist id = st.blacklist id) ∧
    (st.complete_task).taskUsages = [] := by
  refine ⟨?_, ?_, rfl⟩
  · intro id us hmem
    obtain ⟨l1, l2, hsplit⟩ := List.append_of_mem hmem
    have hkeys : st.taskUsages.map Prod.fst =
        l1.map Prod.fst ++ id :: l2.map Prod.fst := by
      rw [hsplit]
      simp
    rw [hkeys] at hnd
    obtain ⟨hnd1, hndc, hdisj⟩ := List.nodup_append.mp hnd
    have hid1 : id ∉ l1.map Prod.fst := fun hc =>
      hdisj hc (List.mem_cons_self _ _)
    have hid2 : id ∉ l2.map Prod.fst := (List.nodup_cons.mp hndc).1
    have hid1m : id ∉ (l1.map (fun p => (p.1, geomean p.2))).map Prod.fst := by
      rw [List.map_map]
      exact hid1
    have hid2m : id ∉ (l2.map (fun p => (p.1, geomean p.2))).map Prod.fst := by
      rw [List.map_map]
      exact hid2
    unfold CTasks.complete_task
    dsimp only
    rw [hsplit, List.map_append, List.map_cons]
    dsimp only
    exact ctasks_fold_spec _ _ _ _ st id (geomean us) hid1m hid2m
  · intro id hid
    have hidm : id ∉ (st.taskUsages.map (fun p => (p.1, geomean p.2))).map
        Prod.fst := by
      rw [List.map_map]
      exact hid
    unfold CTasks.complete_task
    dsimp only
    exact ctasks_fold_untouched _ _ _ st id hidm

/-- Concrete CTasks state for the C5 witness: one provider with
rating 1 and a single recorded usage. -/
noncomputable def ctasksW : CTasks := ⟨fun _ => 1, fun _ => none, [(0, [1])]⟩

/-- C5 witness: the specification applied to `ctasksW`. -/
theorem ctasks_complete_task_spec_witness :
    (∀ id us, (id, us) ∈ ctasksW.taskUsages →
      (ctasksW.complete_task).ratings id =
        ctasksW.ratings id * Real.sqrt
          ((geomean us /
              geomean ((ctasksW.taskUsages.map (fun p => (p.1, geomean p.2))).map
                Prod.snd)) /
            (ctasksW.ratings id /
              geomean (ctasksW.taskUsages.map (fun p => ctasksW.ratings p.1)))) ∧
      (ctasksW.complete_task).blacklist id =
        (if ctasksW.ratings id * Real.sqrt
            ((geomean us /
                geomean ((ctasksW.taskUsages.map (fun p => (p.1, geomean p.2))).map
                  Prod.snd)) /
              (ctasksW.ratings id /
                geomean (ctasksW.taskUsages.map (fun p => ctasksW.ratings p.1)))) ≥ 2
          then some BanDuration.Indefinitely else ctasksW.blacklist id)) ∧
    (∀ id, id ∉ ctasksW.taskUsages.map Prod.fst →
      (ctasksW.complete_task).ratings id = ctasksW.ratings id ∧
      (ctasksW.complete_task).blacklist id = ctasksW.blacklist id) ∧
    (ctasksW.complete_task).taskUsages = [] :=
  ctasks_complete_task_spec ctasksW (by
    show ([((0 : ℕ), [(1 : ℝ)])].map Prod.fst).Nodup
    simp)

/-- Concrete CTasks state for the C5 counterexample: one provider with
rating exactly 2 and one recorded usage 1, so the adjustment factor is
√1 = 1 and the post-update rating is exactly 2.0. -/
noncomputable def ctasksB : CTasks := ⟨fun _ => 2, fun _ => none, [(0, [1])]⟩

/-- C5 counterexample: with a post-update rating of exactly
MAX_RATING = 2.0 the provider IS blacklisted (the code tests `>=`),
although the rating does not *exceed* 2.0 as the claim requires. -/
theorem ctasks_blacklists_at_exact_max :
    (ctasksB.complete_task).blacklist 0 = some BanDuration.Indefinitely ∧
    ¬ ((ctasksB.complete_task).ratings 0 > 2) := by
  have g1 : geomean [(1 : ℝ)] = 1 := by
    simp [geomean]
  have g2 : geomean [(2 : ℝ)] = 2 := by
    simp [geomean]
    exact Real.exp_log (by norm_num)
  have hfactor : (2 : ℝ) * Real.sqrt ((1 / 1) / (2 / 2)) = 2 := by
    norm_num
  unfold ctasksB CTasks.complete_task
  simp only [List.map_cons, List.map_nil, List.foldl_cons, List.foldl_nil]
  rw [g1, g1, g2]
  unfold CTasks.update_provider_rating
  rw [if_pos (by rw [hfactor] : (2 : ℝ) * Real.sqrt ((1 / 1) / (2 / 2)) ≥ 2)]
  constructor
  · show Function.update (fun _ => (none : Option BanDuration)) 0
      (some BanDuration.Indefinitely) 0 = some BanDuration.Indefinitely
    exact Function.update_same _ _ _
  · show ¬ (Function.update (fun _ => (2 : ℝ)) 0
      ((fun _ => (2 : ℝ)) 0 * Real.sqrt ((1 / 1) / ((fun _ => (2 : ℝ)) 0 / 2))) 0 > 2)
    rw [Function.update_same]
    show ¬ ((2 : ℝ) * Real.sqrt ((1 / 1) / (2 / 2)) > 2)
    rw [hfactor]
    norm_num

/-! ### Providers (gd-world/src/provider.rs) -/

/-- world::Event — the three event kinds of the simulator. -/
inductive Event where
  | TaskAdvertisement (requestor_id : ℕ)
  | SubTaskComputed (subtask : SubTask) (requestor_id : ℕ)
      (provider_id : ℕ) (bid : ℚ)
  | SubTaskBudgetExceeded (subtask : SubTask) (requestor_id : ℕ)
      (provider_id : ℕ)
deriving DecidableEq

/-- provider::State. -/
inductive PState where
  | Idle
  | Busy
deriving DecidableEq

/-- ProviderCommon from gd-world; `profit_margin` and `revenue` live
in ℝ because the code updates the margin with `f64::exp`. -/
structure ProviderCommon where
  id : ℕ
  min_price : ℚ
  usage_factor : ℚ
  state : PState
  profit_margin : ℝ
  last_checkpoint : ℚ
  revenue : ℝ
  num_subtasks_assigned : ℕ
  num_subtasks_computed : ℕ
  num_subtasks_cancelled : ℕ

/-- ProviderCommon::ALPHA = 1e-5. -/
noncomputable def provALPHA : ℝ := 1 / 100000

/-- ProviderCommon::decrease_profit_margin:
`profit_margin *= exp(-ALPHA · duration)`. -/
noncomputable def ProviderCommon.decrease_profit_margin
    (pc : ProviderCommon) (duration : ℚ) : ProviderCommon :=
  { pc with profit_margin :=
      pc.profit_margin * Real.exp (-provALPHA * (duration : ℝ)) }

/-- ProviderCommon::receive_subtask: set Busy, count the assignment,
decrease the profit margin over the time since the last checkpoint and
reset the checkpoint; with `expected_usage = nominal_usage ·
usage_factor`, schedule SubTaskBudgetExceeded after `budget / bid`
when `expected_usage · bid > budget`, else SubTaskComputed after
`expected_usage`. -/
noncomputable def ProviderCommon.receive_subtask (pc : ProviderCommon)
    (engine : Engine Event) (s : SubTask) (requestor_id : ℕ) (bid : ℚ) :
    ProviderCommon × Engine Event :=
  let pc2 := { pc with
    state := PState.Busy
    num_subtasks_assigned := pc.num_subtasks_assigned + 1 }
  let pc3 :=
    { pc2.decrease_profit_margin (engine.now - pc.last_checkpoint) with
      last_checkpoint := engine.now }
  if s.nominal_usage * pc.usage_factor * bid > s.budget then
    (pc3, engine.schedule (s.budget / bid)
      (Event.SubTaskBudgetExceeded s requestor_id pc.id))
  else
    (pc3, engine.schedule (s.nominal_usage * pc.usage_factor)
      (Event.SubTaskComputed s requestor_id pc.id bid))

/-- C4: receive_subtask on an idle provider sets the state to Busy,
increments num_subtasks_assigned, multiplies the profit margin by
exp(-ALPHA · elapsed) for the time elapsed since last_checkpoint and
moves the checkpoint to now; with expected_usage = nominal_usage ·
usage_factor it schedules SubTaskBudgetExceeded after budget / bid
virtual seconds when expected_usage · bid > budget, and otherwise
SubTaskComputed after expected_usage virtual seconds. -/
theorem provider_receive_subtask_spec (pc : ProviderCommon)
    (engine : Engine Event) (s : SubTask) (rid : ℕ) (bid : ℚ)
    (hidle : pc.state = PState.Idle) :
    (pc.receive_subtask engine s rid bid).1.state = PState.Busy ∧
    (pc.receive_subtask engine s rid bid).1.num_subtasks_assigned =
      pc.num_subtasks_assigned + 1 ∧
    (pc.receive_subtask engine s rid bid).1.profit_margin =
      pc.profit_margin *
        Real.exp (-provALPHA * ((engine.now - pc.last_checkpoint : ℚ) : ℝ)) ∧
    (pc.receive_subtask engine s rid bid).1.last_checkpoint = engine.now ∧
    (s.nominal_usage * pc.usage_factor * bid > s.budget →
      (pc.receive_subtask engine s rid bid).2 =
        engine.schedule (s.budget / bid)
          (Event.SubTaskBudgetExceeded s rid pc.id)) ∧
    (¬ s.nominal_usage * pc.usage_factor * bid > s.budget →
      (pc.receive_subtask engine s rid bid).2 =
        engine.schedule (s.nominal_usage * pc.usage_factor)
          (Event.SubTaskComputed s rid pc.id bid)) := by
  unfold ProviderCommon.receive_subtask ProviderCommon.decrease_profit_margin
  by_cases hc : s.nominal_usage * pc.usage_factor * bid > s.budget
  · rw [if_pos hc]
    exact ⟨rfl, rfl, rfl, rfl, fun _ => rfl, fun hn => absurd hc hn⟩
  · rw [if_neg hc]
    exact ⟨rfl, rfl, rfl, rfl, fun hy => absurd hy hc, fun _ => rfl⟩

/-- C4 witness: an idle provider with usage factor 2 receiving a
subtask with nominal usage 3 and budget 4 at bid 1 (so the expected
cost 6 overruns the budget and SubTaskBudgetExceeded is scheduled
after 4 / 1 virtual seconds). -/
theorem provider_receive_subtask_spec_witness :
    ((ProviderCommon.mk 1 1 2 PState.Idle 1 0 0 0 0 0).receive_subtask
        (Engine.empty Event) ⟨0, 3, 4⟩ 9 1).1.state = PState.Busy ∧
    ((ProviderCommon.mk 1 1 2 PState.Idle 1 0 0 0 0 0).receive_subtask
        (Engine.empty Event) ⟨0, 3, 4⟩ 9 1).1.num_subtasks_assigned =
      (ProviderCommon.mk 1 1 2 PState.Idle 1 0 0 0 0 0).num_subtasks_assigned
        + 1 ∧
    ((ProviderCommon.mk 1 1 2 PState.Idle 1 0 0 0 0 0).receive_subtask
        (Engine.empty Event) ⟨0, 3, 4⟩ 9 1).1.profit_margin =
      (ProviderCommon.mk 1 1 2 PState.Idle 1 0 0 0 0 0).profit_margin *
        Real.exp (-provALPHA *
          (((Engine.empty Event).now -
            (ProviderCommon.mk 1 1 2 PState.Idle 1 0 0 0 0 0).last_checkpoint
              : ℚ) : ℝ)) ∧
    ((ProviderCommon.mk 1 1 2 PState.Idle 1 0 0 0 0 0).receive_subtask
        (Engine.empty Event) ⟨0, 3, 4⟩ 9 1).1.last_checkpoint =
      (Engine.empty Event).now ∧
    ((⟨0, 3, 4⟩ : SubTask).nominal_usage *
        (ProviderCommon.mk 1 1 2 PState.Idle 1 0 0 0 0 0).usage_factor * 1 >
        (⟨0, 3, 4⟩ : SubTask).budget →
      ((ProviderCommon.mk 1 1 2 PState.Idle 1 0 0 0 0 0).receive_subtask
          (Engine.empty Event) ⟨0, 3, 4⟩ 9 1).2 =
        (Engine.empty Event).schedule ((⟨0, 3, 4⟩ : SubTask).budget / 1)
          (Event.SubTaskBudgetExceeded ⟨0, 3, 4⟩ 9
            (ProviderCommon.mk 1 1 2 PState.Idle 1 0 0 0 0 0).id)) ∧
    (¬ (⟨0, 3, 4⟩ : SubTask).nominal_usage *
        (ProviderCommon.mk 1 1 2 PState.Idle 1 0 0 0 0 0).usage_factor * 1 >
        (⟨0, 3, 4⟩ : SubTask).budget →
      ((ProviderCommon.mk 1 1 2 PState.Idle 1 0 0 0 0 0).receive_subtask
          (Engine.empty Event) ⟨0, 3, 4⟩ 9 1).2 =
        (Engine.empty Event).schedule
          ((⟨0, 3, 4⟩ : SubTask).nominal_usage *
            (ProviderCommon.mk 1 1 2 PState.Idle 1 0 0 0 0 0).usage_factor)
          (Event.SubTaskComputed ⟨0, 3, 4⟩ 9
            (ProviderCommon.mk 1 1 2 PState.Idle 1 0 0 0 0 0).id 1)) :=
  provider_receive_subtask_spec
    (ProviderCommon.mk 1 1 2 PState.Idle 1 0 0 0 0 0)
    (Engine.empty Event) ⟨0, 3, 4⟩ 9 1 rfl

/-! ### The world event loop (gd-world/src/world.rs) -/

/-- A world as driven by World::run: the engine plus the rest of the
world state (requestors, providers, RNG), with the event dispatch
World::handle abstracted into a parameter — the claim is about the
loop itself. -/
structure SimWorld (S : Type) where
  engine : Engine Event
  st : S

/-- World::run's while-let loop with the iteration count made
explicit: pop; stop when the queue was empty; after a successful pop,
with `now` already advanced to the popped event's time, stop without
dispatching when `until < now`; otherwise dispatch and continue. -/
def runAux {S : Type} (handle : Event → SimWorld S → SimWorld S)
    (til : ℚ) : ℕ → SimWorld S → SimWorld S
  | 0, w => w
  | fuel + 1, w =>
    match w.engine.pop with
    | (none, _) => w
    | (some ev, eng2) =>
      if til < eng2.now then { w with engine := eng2 }
      else runAux handle til fuel (handle ev { w with engine := eng2 })

/-- C10: World::run stops when the queue is empty (world unchanged) or
when the popped event's time exceeds `until`; in the latter case the
event is discarded without being dispatched to its handler while the
engine's `now` has already advanced to the event's time, so after
`run` returns `now` exceeds `until`; otherwise the event is dispatched
and the loop continues. -/
theorem world_run_spec {S : Type} (handle : Event → SimWorld S → SimWorld S)
    (til : ℚ) (w : SimWorld S) (fuel : ℕ) :
    (w.engine.events = [] → runAux handle til (fuel + 1) w = w) ∧
    (∀ ev eng2, w.engine.pop = (some ev, eng2) → til < eng2.now →
      runAux handle til (fuel + 1) w = { w with engine := eng2 } ∧
      til < (runAux handle til (fuel + 1) w).engine.now) ∧
    (∀ ev eng2, w.engine.pop = (some ev, eng2) → ¬ til < eng2.now →
      runAux handle til (fuel + 1) w =
        runAux handle til fuel (handle ev { w with engine := eng2 })) := by
  refine ⟨?_, ?_, ?_⟩
  · intro h
    have hp : w.engine.pop = (none, w.engine) := by
      unfold Engine.pop
      rw [h]
      rfl
    show (match w.engine.pop with
      | (none, _) => w
      | (some ev, eng2) =>
        if til < eng2.now then { w with engine := eng2 }
        else runAux handle til fuel (handle ev { w with engine := eng2 })) = w
    rw [hp]
  · intro ev eng2 hp hlt
    have hrun : runAux handle til (fuel + 1) w = { w with engine := eng2 } := by
      show (match w.engine.pop with
        | (none, _) => w
        | (some ev, eng2) =>
          if til < eng2.now then { w with engine := eng2 }
          else runAux handle til fuel (handle ev { w with engine := eng2 })) = _
      rw [hp]
      dsimp only
      rw [if_pos hlt]
    exact ⟨hrun, by rw [hrun]; exact hlt⟩
  · intro ev eng2 hp hlt
    show (match w.engine.pop with
      | (none, _) => w
      | (some ev, eng2) =>
        if til < eng2.now then { w with engine := eng2 }
        else runAux handle til fuel (handle ev { w with engine := eng2 })) = _
    rw [hp]
    dsimp only
    rw [if_neg hlt]

/-- C10 witness: a world holding a single event at time 1 run until 0:
the event is popped but not handled, and `now` ends at 1 > 0. -/
theorem world_run_spec_witness :
    ((SimWorld.mk ((Engine.empty Event).schedule 1
        (Event.TaskAdvertisement 0)) ()).engine.events = [] →
      runAux (fun _ w => w) 0 (0 + 1)
        (SimWorld.mk ((Engine.empty Event).schedule 1
          (Event.TaskAdvertisement 0)) ()) =
        SimWorld.mk ((Engine.empty Event).schedule 1
          (Event.TaskAdvertisement 0)) ()) ∧
    (∀ ev eng2, (SimWorld.mk ((Engine.empty Event).schedule 1
        (Event.TaskAdvertisement 0)) ()).engine.pop = (some ev, eng2) →
      (0 : ℚ) < eng2.now →
      runAux (fun _ w => w) 0 (0 + 1)
        (SimWorld.mk ((Engine.empty Event).schedule 1
          (Event.TaskAdvertisement 0)) ()) =
        { SimWorld.mk ((Engine.empty Event).schedule 1
            (Event.TaskAdvertisement 0)) () with engine := eng2 } ∧
      (0 : ℚ) < (runAux (fun _ w => w) 0 (0 + 1)
        (SimWorld.mk ((Engine.empty Event).schedule 1
          (Event.TaskAdvertisement 0)) ())).engine.now) ∧
    (∀ ev eng2, (SimWorld.mk ((Engine.empty Event).schedule 1
        (Event.TaskAdvertisement 0)) ()).engine.pop = (some ev, eng2) →
      ¬ (0 : ℚ) < eng2.now →
      runAux (fun _ w => w) 0 (0 + 1)
        (SimWorld.mk ((Engine.empty Event).schedule 1
          (Event.TaskAdvertisement 0)) ()) =
        runAux (fun _ w => w) 0 0 ((fun _ w => w) ev
          { SimWorld.mk ((Engine.empty Event).schedule 1
              (Event.TaskAdvertisement 0)) () with engine := eng2 })) :=
  world_run_spec (fun _ w => w) 0
    (SimWorld.mk ((Engine.empty Event).schedule 1
      (Event.TaskAdvertisement 0)) ()) 0

end GD
